import Mathlib

/-!
A verification development for the javalette compiler sources.

Each Rust item that a claim depends on is embedded as an executable Lean
definition, translated arm by arm from the source file it lives in:

* `src/ty.rs`                     → `Ty`
* `src/ast.rs`                    → namespace `ast`
* `src/ir/mod.rs`                 → namespace `ir`
* `src/ir_translator/typeck.rs`   → `binop_typeck`, `unop_typeck`
* `src/backend/mod.rs`            → namespace `backend`
* `src/lexer/mod.rs`              → namespace `lexer`

Theorems about the embeddings follow the definitions.
-/

namespace Javalette

/-- `ty::Type` from src/ty.rs.  `LValue` in src/ty.rs carries only the inner
type (no mutability flag).  `Array` sizes are `usize`, embedded as `Nat`. -/
inductive Ty where
  | Int
  | Double
  | Boolean
  | String
  | Void
  | LValue (sub : Ty)
  | Pointer (sub : Ty)
  | Array (sub : Ty) (size : Nat)
  deriving DecidableEq, Repr

namespace ast

/-- `ast::BinaryOperatorKind` from src/ast.rs. -/
inductive BinaryOperatorKind where
  | Plus
  | Minus
  | Multiply
  | Divide
  | Modulo
  | Equal
  | NotEqual
  | Less
  | LessEqual
  | Greater
  | GreaterEqual
  deriving DecidableEq, Repr

/-- `ast::UnaryOperatorKind` from src/ast.rs. -/
inductive UnaryOperatorKind where
  | Minus
  | LogicalNot
  | PtrDeref
  deriving DecidableEq, Repr

end ast

namespace ir

/-- `ir::BinaryOperatorKind` from src/ir/mod.rs.  Note: this enum has no
pointer variants (no PtrPlusOffset, PtrMinusOffset or PtrDiff). -/
inductive BinaryOperatorKind where
  | IntPlus
  | DoublePlus
  | IntMinus
  | DoubleMinus
  | IntMultiply
  | DoubleMultiply
  | IntDivide
  | DoubleDivide
  | IntModulo
  | IntEqual
  | DoubleEqual
  | BooleanEqual
  | IntNotEqual
  | DoubleNotEqual
  | BooleanNotEqual
  | IntLess
  | DoubleLess
  | IntLessEqual
  | DoubleLessEqual
  | IntGreater
  | DoubleGreater
  | IntGreaterEqual
  | DoubleGreaterEqual
  deriving DecidableEq, Repr

/-- `ir::LazyOperatorKind` from src/ir/mod.rs. -/
inductive LazyOperatorKind where
  | BooleanLogicalAnd
  | BooleanLogicalOr
  deriving DecidableEq, Repr

/-- `ir::UnaryOperatorKind` from src/ir/mod.rs. -/
inductive UnaryOperatorKind where
  | IntMinus
  | DoubleMinus
  | BooleanNot
  deriving DecidableEq, Repr

end ir

/-- `binop_typeck` from src/ir_translator/typeck.rs, arm by arm.  The Rust
match ends with a catch-all `_ => None`. -/
def binop_typeck (binop : ast.BinaryOperatorKind) (lhs rhs : Ty) :
    Option (Ty × ir.BinaryOperatorKind) :=
  match binop, lhs, rhs with
  | .Plus, .Int, .Int => some (.Int, .IntPlus)
  | .Plus, .Double, .Double => some (.Double, .DoublePlus)
  | .Minus, .Int, .Int => some (.Int, .IntMinus)
  | .Minus, .Double, .Double => some (.Double, .DoubleMinus)
  | .Multiply, .Int, .Int => some (.Int, .IntMultiply)
  | .Multiply, .Double, .Double => some (.Double, .DoubleMultiply)
  | .Divide, .Int, .Int => some (.Int, .IntDivide)
  | .Divide, .Double, .Double => some (.Double, .DoubleDivide)
  | .Modulo, .Int, .Int => some (.Int, .IntModulo)
  | .Equal, .Int, .Int => some (.Boolean, .IntEqual)
  | .Equal, .Double, .Double => some (.Boolean, .DoubleEqual)
  | .Equal, .Boolean, .Boolean => some (.Boolean, .BooleanEqual)
  | .NotEqual, .Int, .Int => some (.Boolean, .IntNotEqual)
  | .NotEqual, .Double, .Double => some (.Boolean, .DoubleNotEqual)
  | .NotEqual, .Boolean, .Boolean => some (.Boolean, .BooleanNotEqual)
  | .Less, .Int, .Int => some (.Boolean, .IntLess)
  | .Less, .Double, .Double => some (.Boolean, .DoubleLess)
  | .LessEqual, .Int, .Int => some (.Boolean, .IntLessEqual)
  | .LessEqual, .Double, .Double => some (.Boolean, .DoubleLessEqual)
  | .Greater, .Int, .Int => some (.Boolean, .IntGreater)
  | .Greater, .Double, .Double => some (.Boolean, .DoubleGreater)
  | .GreaterEqual, .Int, .Int => some (.Boolean, .IntGreaterEqual)
  | .GreaterEqual, .Double, .Double => some (.Boolean, .DoubleGreaterEqual)
  | _, _, _ => none

/-- `unop_typeck` from src/ir_translator/typeck.rs. -/
def unop_typeck (unop : ast.UnaryOperatorKind) (sub : Ty) :
    Option (Ty × ir.UnaryOperatorKind) :=
  match unop, sub with
  | .Minus, .Int => some (.Int, .IntMinus)
  | .Minus, .Double => some (.Double, .DoubleMinus)
  | .LogicalNot, .Boolean => some (.Boolean, .BooleanNot)
  | _, _ => none

/-- Rust's `i64`: the payload type of integer literals in src/ir/mod.rs
(`IntLiteral(i64)`) and of the lexer's integer tokens. -/
abbrev I64 := {v : Int // -(2 ^ 63) ≤ v ∧ v < 2 ^ 63}

namespace ir

/-- `ir::Literal` from src/ir/mod.rs.  `StringId` (an interner id) is
embedded as `Nat`; the `f64` payload of `DoubleLiteral` is embedded as
`Float` and is never inspected by any claim. -/
inductive Literal where
  | IntLiteral (value : I64)
  | DoubleLiteral (value : Float)
  | BooleanLiteral (value : Bool)
  | StringLiteral (id : Nat)

mutual

/-- `ir::Expression` from src/ir/mod.rs, constructor for constructor.  Boxes
are dropped; `Vec` becomes `List`.  Note the dedicated `LazyOperator`
variant and the absence of any ternary/conditional variant. -/
inductive Expression where
  | DefaultValue
  | LValueToRValue (sub : TypedExpression)
  | Literal (lit : Literal)
  | Identifier (name : String)
  | Assign (lhs rhs : TypedExpression)
  | BinaryOperator (binop : BinaryOperatorKind) (lhs rhs : TypedExpression)
  | LazyOperator (lazyop : LazyOperatorKind) (lhs rhs : TypedExpression)
  | UnaryOperator (unop : UnaryOperatorKind) (sub : TypedExpression)
  | Increment (sub : TypedExpression)
  | Decrement (sub : TypedExpression)
  | Subscript (array index : TypedExpression)
  | FunctionCall (function : String) (args : List TypedExpression)
  | NewArray (base_ty : Ty) (sizes : List Nat)
  | ArrayLength (sub : TypedExpression)

/-- `ir::TypedExpression` from src/ir/mod.rs: a type paired with an
expression. -/
inductive TypedExpression where
  | mk (ty : Ty) (expr : Expression)

end

/-- `ir::Statement` from src/ir/mod.rs, constructor for constructor
(`BlockStatement` is `Vec<Statement>`, embedded as `List Statement`).
Note the `While` variant, the absence of a `For` variant, and `Return`
carrying a mandatory expression. -/
inductive Statement where
  | Block (block : List Statement)
  | VarDecl (ty : Ty) (name : String) (value : TypedExpression)
  | If (condition : TypedExpression) (body else_clause : List Statement)
  | While (condition : TypedExpression) (body : List Statement)
  | Return (expr : TypedExpression)
  | Expression (expr : TypedExpression)
  | Break
  | Continue

/-- Head-constructor tags for `ir::Expression`.  The tag `ternary` is
deliberately included even though no constructor maps to it: it lets the
absence of a ternary/conditional node in the IR be stated as a theorem. -/
inductive ExprForm where
  | defaultValue
  | lvalueToRValue
  | literal
  | identifier
  | assign
  | binaryOperator
  | lazyOperator
  | unaryOperator
  | increment
  | decrement
  | subscript
  | functionCall
  | newArray
  | arrayLength
  | ternary
  deriving DecidableEq, Repr

/-- The head constructor of an `ir::Expression`. -/
def exprForm : Expression → ExprForm
  | .DefaultValue => .defaultValue
  | .LValueToRValue _ => .lvalueToRValue
  | .Literal _ => .literal
  | .Identifier _ => .identifier
  | .Assign _ _ => .assign
  | .BinaryOperator _ _ _ => .binaryOperator
  | .LazyOperator _ _ _ => .lazyOperator
  | .UnaryOperator _ _ => .unaryOperator
  | .Increment _ => .increment
  | .Decrement _ => .decrement
  | .Subscript _ _ => .subscript
  | .FunctionCall _ _ => .functionCall
  | .NewArray _ _ => .newArray
  | .ArrayLength _ => .arrayLength

/-- Head-constructor tags for `ir::Statement`.  The tag `forS` is
deliberately included even though no constructor maps to it. -/
inductive StmtForm where
  | blockS
  | varDeclS
  | ifS
  | whileS
  | forS
  | returnS
  | expressionS
  | breakS
  | continueS
  deriving DecidableEq, Repr

/-- The head constructor of an `ir::Statement`. -/
def stmtForm : Statement → StmtForm
  | .Block _ => .blockS
  | .VarDecl _ _ _ => .varDeclS
  | .If _ _ _ => .ifS
  | .While _ _ => .whileS
  | .Return _ => .returnS
  | .Expression _ => .expressionS
  | .Break => .breakS
  | .Continue => .continueS

end ir

namespace backend

/-- `llvm::LLVMIntPredicate` as used by src/backend/mod.rs. -/
inductive LLVMIntPredicate where
  | IntEQ
  | IntNE
  | IntUGT
  | IntUGE
  | IntULT
  | IntULE
  | IntSGT
  | IntSGE
  | IntSLT
  | IntSLE
  deriving DecidableEq, Repr

/-- `llvm::LLVMRealPredicate` as used by src/backend/mod.rs.  The `O...`
predicates are the ordered IEEE-754 comparisons (false when an operand is
NaN), the `U...` predicates the unordered ones (true when an operand is
NaN). -/
inductive LLVMRealPredicate where
  | RealPredicateFalse
  | RealOEQ
  | RealOGT
  | RealOGE
  | RealOLT
  | RealOLE
  | RealONE
  | RealORD
  | RealUNO
  | RealUEQ
  | RealUGT
  | RealUGE
  | RealULT
  | RealULE
  | RealUNE
  | RealPredicateTrue
  deriving DecidableEq, Repr

/-- Whether a real predicate is one of the six ordered comparison
predicates (or the `ORD` test itself). -/
def LLVMRealPredicate.isOrdered : LLVMRealPredicate → Bool
  | .RealOEQ => true
  | .RealOGT => true
  | .RealOGE => true
  | .RealOLT => true
  | .RealOLE => true
  | .RealONE => true
  | .RealORD => true
  | _ => false

/-- The backend generation of `ir::BinaryOperatorKind`, read off the
exhaustive match in `codegen_binop` (src/backend/mod.rs lines 470-497);
that module itself is not under src/.  It extends the front-end operator
enum with the three pointer operators of spec §3. -/
inductive BinaryOperatorKind where
  | IntPlus
  | DoublePlus
  | IntMinus
  | DoubleMinus
  | IntMultiply
  | DoubleMultiply
  | IntDivide
  | DoubleDivide
  | IntModulo
  | IntEqual
  | DoubleEqual
  | BooleanEqual
  | IntNotEqual
  | DoubleNotEqual
  | BooleanNotEqual
  | IntLess
  | DoubleLess
  | IntLessEqual
  | DoubleLessEqual
  | IntGreater
  | DoubleGreater
  | IntGreaterEqual
  | DoubleGreaterEqual
  | PtrPlusOffset
  | PtrMinusOffset
  | PtrDiff
  deriving DecidableEq, Repr

/-- The backend generation of `ir::UnaryOperatorKind`, read off the match in
`codegen_unop` (src/backend/mod.rs lines 502-518). -/
inductive UnaryOperatorKind where
  | IntMinus
  | DoubleMinus
  | BooleanNot
  | PointerDeref
  deriving DecidableEq, Repr

/-- The backend generation of `ir::LValueUnaryOperatorKind`, read off the
match in `codegen_lvalue_unop` (src/backend/mod.rs lines 520-530). -/
inductive LValueUnaryOperatorKind where
  | IntIncrement
  | IntDecrement
  | LValueToPtr
  deriving DecidableEq, Repr

/-- The builder function selected by `codegen_binop`'s `let func = match
binop { ... }` (src/backend/mod.rs lines 470-497): one IRBuilder
instruction-builder per monomorphic operator.  `ptrPlusOffset` stands for
`build_ptr_plus_offset` (a GEP by the offset) and `ptrMinusOffset` for
`build_ptr_minus_offset` (negate the offset, then GEP). -/
inductive BinopBuilder where
  | buildAdd
  | buildFAdd
  | buildSub
  | buildFSub
  | buildMul
  | buildFMul
  | buildSDiv
  | buildFDiv
  | buildSRem
  | icmp (pred : LLVMIntPredicate)
  | fcmp (pred : LLVMRealPredicate)
  | ptrPlusOffset
  | ptrMinusOffset
  deriving DecidableEq, Repr

/-- The dispatch of `codegen_binop` (src/backend/mod.rs lines 470-497), arm
by arm.  `none` models the `PtrDiff => unimplemented!()` arm, which panics
and aborts the compiler; every other arm selects a builder. -/
def codegen_binop_builder : BinaryOperatorKind → Option BinopBuilder
  | .IntPlus => some .buildAdd
  | .DoublePlus => some .buildFAdd
  | .IntMinus => some .buildSub
  | .DoubleMinus => some .buildFSub
  | .IntMultiply => some .buildMul
  | .DoubleMultiply => some .buildFMul
  | .IntDivide => some .buildSDiv
  | .DoubleDivide => some .buildFDiv
  | .IntModulo => some .buildSRem
  | .IntEqual => some (.icmp .IntEQ)
  | .DoubleEqual => some (.fcmp .RealUEQ)
  | .BooleanEqual => some (.icmp .IntEQ)
  | .IntNotEqual => some (.icmp .IntNE)
  | .DoubleNotEqual => some (.fcmp .RealUNE)
  | .BooleanNotEqual => some (.icmp .IntNE)
  | .IntLess => some (.icmp .IntSLT)
  | .DoubleLess => some (.fcmp .RealULT)
  | .IntLessEqual => some (.icmp .IntSLE)
  | .DoubleLessEqual => some (.fcmp .RealULE)
  | .IntGreater => some (.icmp .IntSGT)
  | .DoubleGreater => some (.fcmp .RealUGT)
  | .IntGreaterEqual => some (.icmp .IntSGE)
  | .DoubleGreaterEqual => some (.fcmp .RealUGE)
  | .PtrPlusOffset => some .ptrPlusOffset
  | .PtrMinusOffset => some .ptrMinusOffset
  | .PtrDiff => none

/-- Whether a selected builder is an ordered floating-point comparison. -/
def usesOrderedFcmp : Option BinopBuilder → Bool
  | some (.fcmp p) => p.isOrdered
  | _ => false

/-- Backend-generation IR statements as consumed by `codegen_statement`
(src/backend/mod.rs lines 213-235).  Basic blocks and branch targets are the
only concern of claims C2 and C6, so expression positions (the `If`/`For`
conditions, the `For` step, the `Return` value and expression statements)
are collapsed to presence flags: `codegen_expression` never reads or writes
`current_break`/`current_continue` and always leaves the builder positioned
where the surrounding statement expects it, so its emission is modelled by
the single marker instruction `exprCode`. -/
inductive Stmt where
  | Block (block : List Stmt)
  | If (body else_clause : List Stmt)
  | For (init : Stmt) (has_step : Bool) (body : List Stmt)
  | Return (has_value : Bool)
  | ExprStmt
  | Break
  | Continue

/-- The IRBuilder instructions relevant to statement lowering.  A `br` to
`none` models `build_br` on the null block pointer that
`current_break`/`current_continue` hold before any loop was entered. -/
inductive Instr where
  | br (target : Option Nat)
  | condBr (then_bb else_bb : Nat)
  | ret
  | retVoid
  | exprCode
  | unreachableInstr
  deriving DecidableEq, Repr

/-- The mutable emitter state of `Backend` (src/backend/mod.rs lines 45-57)
restricted to what statement lowering touches: the supply of fresh basic
blocks (`context.append_bb_to_func` is modelled by handing out consecutive
ids), the block the builder is positioned at, the break/continue targets,
and the emitted instructions tagged with the block they were inserted in. -/
structure CGState where
  next_bb : Nat
  current_bb : Nat
  current_break : Option Nat
  current_continue : Option Nat
  code : List (Nat × Instr)
  deriving DecidableEq, Repr

/-- `builder.build_*` at the current insertion block. -/
def CGState.emit (s : CGState) (i : Instr) : CGState :=
  { s with code := s.code ++ [(s.current_bb, i)] }

/-- `context.append_bb_to_func`: allocate a fresh block. -/
def CGState.appendBB (s : CGState) : CGState × Nat :=
  ({ s with next_bb := s.next_bb + 1 }, s.next_bb)

/-- `builder.position_at_end`. -/
def CGState.positionAtEnd (s : CGState) (bb : Nat) : CGState :=
  { s with current_bb := bb }

/-- `codegen_next_bb` (src/backend/mod.rs lines 291-294): append a fresh
block and position the builder there. -/
def codegen_next_bb (s : CGState) : CGState :=
  let p := s.appendBB
  p.1.positionAtEnd p.2

mutual

/-- `codegen_statement` (src/backend/mod.rs lines 213-235) together with the
statement-specific emitters it dispatches to: `codegen_if` (lines 237-259),
`codegen_for` (lines 261-289), `codegen_return_statement` (lines 296-305),
`codegen_break_statement` (lines 307-310) and `codegen_continue_statement`
(lines 312-315), each translated line by line.  Note that `codegen_for`
overwrites `current_break`/`current_continue` before lowering its body and
never restores them afterwards. -/
def codegen_statement : Stmt → CGState → CGState
  | .Block block, s => codegen_block_statement block s
  | .If body els, s =>
      let s := s.emit .exprCode
      let p1 := s.appendBB
      let then_bb := p1.2
      let p2 := p1.1.appendBB
      let else_bb := p2.2
      let p3 := p2.1.appendBB
      let end_bb := p3.2
      let s := p3.1.emit (.condBr then_bb else_bb)
      let s := s.positionAtEnd then_bb
      let s := codegen_block_statement body s
      let s := s.emit (.br (some end_bb))
      let s := s.positionAtEnd else_bb
      let s := codegen_block_statement els s
      let s := s.emit (.br (some end_bb))
      s.positionAtEnd end_bb
  | .For init has_step body, s =>
      let p1 := s.appendBB
      let loop_bb := p1.2
      let p2 := p1.1.appendBB
      let then_bb := p2.2
      let p3 := p2.1.appendBB
      let end_bb := p3.2
      let s := codegen_statement init p3.1
      let s := s.emit (.br (some loop_bb))
      let s := s.positionAtEnd loop_bb
      let s := s.emit .exprCode
      let s := s.emit (.condBr then_bb end_bb)
      let s := { s with current_break := some end_bb,
                        current_continue := some loop_bb }
      let s := s.positionAtEnd then_bb
      let s := codegen_block_statement body s
      let s := if has_step then s.emit .exprCode else s
      let s := s.emit (.br (some loop_bb))
      s.positionAtEnd end_bb
  | .Return has_value, s =>
      let s := if has_value then (s.emit .exprCode).emit .ret else s.emit .retVoid
      codegen_next_bb s
  | .ExprStmt, s => s.emit .exprCode
  | .Break, s => codegen_next_bb (s.emit (.br s.current_break))
  | .Continue, s => codegen_next_bb (s.emit (.br s.current_continue))

/-- `codegen_block_statement` (src/backend/mod.rs lines 207-211). -/
def codegen_block_statement : List Stmt → CGState → CGState
  | [], s => s
  | st :: rest, s => codegen_block_statement rest (codegen_statement st s)

end

/-- `codegen_block_statement_terminated` (src/backend/mod.rs lines 202-205):
lower the block, then emit `unreachable` on the fall-through path. -/
def codegen_block_statement_terminated (block : List Stmt) (s : CGState) : CGState :=
  (codegen_block_statement block s).emit .unreachableInstr

/-- The emitter state right after `codegen_function` (src/backend/mod.rs
lines 163-180) appends the entry block (id 0) and positions the builder
there: `current_break`/`current_continue` still hold the null pointer. -/
def function_entry_state : CGState :=
  { next_bb := 1, current_bb := 0, current_break := none,
    current_continue := none, code := [] }

mutual

/-- Modelled from the spec: "`break`/`continue` target the innermost loop's
`end`/`loop` blocks" (§4.3 Control flow).  Identical to `codegen_statement`
except that lowering a loop restores the enclosing loop's break/continue
targets once the loop is finished, so a break after a complete inner loop
targets the loop that encloses it. -/
def spec_statement : Stmt → CGState → CGState
  | .Block block, s => spec_block_statement block s
  | .If body els, s =>
      let s := s.emit .exprCode
      let p1 := s.appendBB
      let then_bb := p1.2
      let p2 := p1.1.appendBB
      let else_bb := p2.2
      let p3 := p2.1.appendBB
      let end_bb := p3.2
      let s := p3.1.emit (.condBr then_bb else_bb)
      let s := s.positionAtEnd then_bb
      let s := spec_block_statement body s
      let s := s.emit (.br (some end_bb))
      let s := s.positionAtEnd else_bb
      let s := spec_block_statement els s
      let s := s.emit (.br (some end_bb))
      s.positionAtEnd end_bb
  | .For init has_step body, s =>
      let saved_break := s.current_break
      let saved_continue := s.current_continue
      let p1 := s.appendBB
      let loop_bb := p1.2
      let p2 := p1.1.appendBB
      let then_bb := p2.2
      let p3 := p2.1.appendBB
      let end_bb := p3.2
      let s := spec_statement init p3.1
      let s := s.emit (.br (some loop_bb))
      let s := s.positionAtEnd loop_bb
      let s := s.emit .exprCode
      let s := s.emit (.condBr then_bb end_bb)
      let s := { s with current_break := some end_bb,
                        current_continue := some loop_bb }
      let s := s.positionAtEnd then_bb
      let s := spec_block_statement body s
      let s := if has_step then s.emit .exprCode else s
      let s := s.emit (.br (some loop_bb))
      let s := s.positionAtEnd end_bb
      { s with current_break := saved_break, current_continue := saved_continue }
  | .Return has_value, s =>
      let s := if has_value then (s.emit .exprCode).emit .ret else s.emit .retVoid
      codegen_next_bb s
  | .ExprStmt, s => s.emit .exprCode
  | .Break, s => codegen_next_bb (s.emit (.br s.current_break))
  | .Continue, s => codegen_next_bb (s.emit (.br s.current_continue))

/-- Spec-side lowering of a block of statements. -/
def spec_block_statement : List Stmt → CGState → CGState
  | [], s => s
  | st :: rest, s => spec_block_statement rest (spec_statement st s)

end

/-- An outer loop whose body is a complete inner loop followed by `break`:
`for (e;c;) { for (e;c;) { } break; }`. -/
def nested_break_program : Stmt :=
  .For .ExprStmt false [.For .ExprStmt false [], .Break]

/-- LLVM types, as produced by `codegen_type`'s uses of the `Context` type
constructors (src/backend/llvm/helper.rs lines 34-68): `void_ty`, the
integer types of a given bit width (`i1_ty`, `i8_ty`, `i32_ty`),
`double_ty`, pointer types and array types. -/
inductive LLVMType where
  | void
  | int (width : Nat)
  | double
  | pointer (sub : LLVMType)
  | array (sub : LLVMType) (size : Nat)
  deriving DecidableEq, Repr

/-- Bit width of an integer type (0 for non-integer types). -/
def LLVMType.width : LLVMType → Nat
  | .int w => w
  | _ => 0

/-- Pointee of a pointer type (`void` junk otherwise). -/
def LLVMType.pointee : LLVMType → LLVMType
  | .pointer sub => sub
  | _ => .void

/-- `codegen_type` (src/backend/mod.rs lines 79-129) restricted to the type
values src/ty.rs can express.  The backend's match is over the newer
`ty::TypeValue` enum, whose defining module is not under src/; its
`Incomplete` (a panic), `Struct`, `Tuple` and `FunctionPtr` arms concern
variants that src/ty.rs's `Type` does not have and are omitted, and the
memoizing `ty_cache` is the identity on a pure function.  `Int` maps to
`context.i32_ty()`, `Boolean` to `i1_ty()`, `String` to a pointer to
`i8_ty()`, and `LValue(sub)` and `Pointer(sub)` both map to a pointer to
the lowered `sub`. -/
def codegen_type : Ty → LLVMType
  | .Void => .void
  | .Int => .int 32
  | .Double => .double
  | .Boolean => .int 1
  | .String => .pointer (.int 8)
  | .LValue sub => .pointer (codegen_type sub)
  | .Pointer sub => .pointer (codegen_type sub)
  | .Array sub n => .array (codegen_type sub) n

/-- The arithmetic instruction builders of src/backend/llvm/helper.rs used
by `codegen_binop`, `codegen_unop` and `codegen_incdecrement`. -/
inductive ArithOp where
  | add
  | sub
  | mul
  | sdiv
  | srem
  | fadd
  | fsub
  | fmul
  | fdiv
  deriving DecidableEq, Repr

/-- Whether an arithmetic builder is an integer one. -/
def ArithOp.isIntArith : ArithOp → Bool
  | .add => true
  | .sub => true
  | .mul => true
  | .sdiv => true
  | .srem => true
  | _ => false

/-- SSA-level instructions emitted by expression lowering.  Operands are SSA
value ids; each value-producing instruction creates the next SSA value.  An
`arith` instruction carries the LLVM type LLVM gives its result (the type of
the left operand, which is how `LLVMBuildAdd` and friends operate); that is
the width the instruction computes at. -/
inductive EInstr where
  | constInt (ty : LLVMType) (value : Int)
  | constReal (ty : LLVMType)
  | globalStr (id : Nat)
  | bitcast (value : Nat) (ty : LLVMType)
  | alloca (ty : LLVMType)
  | load (ptr : Nat)
  | store (value ptr : Nat)
  | arith (op : ArithOp) (ty : LLVMType) (lhs rhs : Nat)
  | icmpInstr (pred : LLVMIntPredicate) (lhs rhs : Nat)
  | fcmpInstr (pred : LLVMRealPredicate) (lhs rhs : Nat)
  | notInstr (value : Nat)
  | gep (ptr offset : Nat)
  deriving DecidableEq, Repr

/-- The expression-lowering state of the `Backend`: the LLVM type of each
SSA value created so far (value `v` is index `v`; the value supply is the
list length), the `ids` map from identifier ids to their stack-slot values
(src/backend/mod.rs line 50), and the emitted instructions. -/
structure EState where
  tys : List LLVMType
  locals : List (Nat × Nat)
  ecode : List EInstr
  deriving DecidableEq, Repr

/-- The LLVM type of SSA value `v` (`void` junk when out of range). -/
def EState.typeOfV (st : EState) (v : Nat) : LLVMType :=
  st.tys.getD v .void

/-- Emit a value-producing instruction: the new value id is the old value
count. -/
def EState.emitV (st : EState) (i : EInstr) (ty : LLVMType) : EState × Nat :=
  ({ st with tys := st.tys ++ [ty], ecode := st.ecode ++ [i] }, st.tys.length)

/-- `build_store` — produces no SSA value the code ever uses. -/
def EState.emitStore (st : EState) (v ptr : Nat) : EState :=
  { st with ecode := st.ecode ++ [.store v ptr] }

/-- `utils::const_int(ty, v, sign_extend)` wraps `LLVMConstInt`, which
truncates its `u64` argument to the type's bit width; the stored constant is
`v mod 2^width`.  (The sign-extension flag only affects how LLVM widens the
argument beyond 64 bits and is dropped.) -/
def const_int (st : EState) (ty : LLVMType) (v : Int) : EState × Nat :=
  st.emitV (.constInt ty (v.emod (2 ^ ty.width))) ty

/-- `codegen_literal` (src/backend/mod.rs lines 377-393) and
`codegen_string_literal` (lines 395-401).  `tyctxt.get_int_ty()` etc. are
the interned `Int`/`Double`/`Boolean`/`String` type values, so each literal
constant is built at `codegen_type` of its front-end type; a string literal
emits the global-string pointer and then a bitcast to the lowered `String`
type. -/
def codegen_literal (st : EState) (lit : ir.Literal) : EState × Nat :=
  match lit with
  | .IntLiteral v => const_int st (codegen_type .Int) v.val
  | .DoubleLiteral _ =>
      st.emitV (.constReal (codegen_type .Double)) (codegen_type .Double)
  | .BooleanLiteral b => const_int st (codegen_type .Boolean) (if b then 1 else 0)
  | .StringLiteral id =>
      let p := st.emitV (.globalStr id) (.pointer (.int 8))
      p.1.emitV (.bitcast p.2 (codegen_type .String)) (codegen_type .String)

/-- The backend generation of `ir::Value` (consumed by `codegen_value`,
src/backend/mod.rs lines 345-355; globals are omitted — they can only be
functions, which the fragment below does not call). -/
inductive BValue where
  | literal (lit : ir.Literal)
  | localVar (id : Nat)

/-- The fragment of the backend generation of `ir::Expression` (the enum
consumed by `codegen_expression`, src/backend/mod.rs lines 317-343; its
defining module is not under src/) that claims C8 and C10 range over:
values, the two lvalue/rvalue wrappers, assignment, binary operators, unary
operators and lvalue-unary operators.  Casts, bitcasts, calls, field
accesses, ternaries and block expressions fall outside the fragment. -/
inductive BExpr where
  | value (v : BValue)
  | lvalueToRValue (sub : BExpr)
  | rvalueToLValue (sub : BExpr)
  | assign (lhs rhs : BExpr)
  | binaryOperator (binop : BinaryOperatorKind) (lhs rhs : BExpr)
  | unaryOperator (unop : UnaryOperatorKind) (sub : BExpr)
  | lvalueUnaryOperator (lvalue_unop : LValueUnaryOperatorKind) (sub : BExpr)

/-- The instruction sequence `codegen_binop` (src/backend/mod.rs lines
416-500) emits once both operands are evaluated: apply the builder selected
by `codegen_binop_builder`.  Arithmetic results take the left operand's
type (LLVM's rule); comparisons produce `i1`; `build_ptr_plus_offset` is a
GEP; `build_ptr_minus_offset` builds a zero constant at the right operand's
type, subtracts to negate, then GEPs.  The `PtrDiff` panic
(`unimplemented!()`) is modelled by emitting nothing and returning value 0;
it is unreachable from well-typed IR. -/
def codegen_binop_apply (k : BinaryOperatorKind) (st : EState) (l r : Nat) :
    EState × Nat :=
  match codegen_binop_builder k with
  | some .buildAdd => st.emitV (.arith .add (st.typeOfV l) l r) (st.typeOfV l)
  | some .buildFAdd => st.emitV (.arith .fadd (st.typeOfV l) l r) (st.typeOfV l)
  | some .buildSub => st.emitV (.arith .sub (st.typeOfV l) l r) (st.typeOfV l)
  | some .buildFSub => st.emitV (.arith .fsub (st.typeOfV l) l r) (st.typeOfV l)
  | some .buildMul => st.emitV (.arith .mul (st.typeOfV l) l r) (st.typeOfV l)
  | some .buildFMul => st.emitV (.arith .fmul (st.typeOfV l) l r) (st.typeOfV l)
  | some .buildSDiv => st.emitV (.arith .sdiv (st.typeOfV l) l r) (st.typeOfV l)
  | some .buildFDiv => st.emitV (.arith .fdiv (st.typeOfV l) l r) (st.typeOfV l)
  | some .buildSRem => st.emitV (.arith .srem (st.typeOfV l) l r) (st.typeOfV l)
  | some (.icmp p) => st.emitV (.icmpInstr p l r) (.int 1)
  | some (.fcmp p) => st.emitV (.fcmpInstr p l r) (.int 1)
  | some .ptrPlusOffset => st.emitV (.gep l r) (st.typeOfV l)
  | some .ptrMinusOffset =>
      let c := const_int st (st.typeOfV r) 0
      let n := c.1.emitV (.arith .sub (c.1.typeOfV c.2) c.2 r) (c.1.typeOfV c.2)
      n.1.emitV (.gep l n.2) (n.1.typeOfV l)
  | none => (st, 0)

mutual

/-- `codegen_expression` (src/backend/mod.rs lines 317-343) on the fragment,
dispatching to `codegen_value`/`codegen_literal`/`codegen_identifier`
(values; `codegen_identifier` is `self.ids[&id]`, modelled totally with a
default of 0), `codegen_l2r_expr` (lines 364-367: evaluate, then load),
`codegen_r2l_expr` (lines 369-375: evaluate, alloca a slot of the value's
type, store into it, yield the slot), `codegen_assign` (lines 407-414:
evaluate lhs then rhs, store rhs through lhs, yield rhs), `codegen_binop`
(lines 416-500), `codegen_unop` (lines 502-518) and `codegen_lvalue_unop`
(lines 520-530). -/
def codegen_expression : BExpr → EState → EState × Nat
  | .value (.literal lit), st => codegen_literal st lit
  | .value (.localVar id), st => (st, ((st.locals.lookup id).getD 0))
  | .lvalueToRValue sub, st =>
      let p := codegen_expression sub st
      p.1.emitV (.load p.2) ((p.1.typeOfV p.2).pointee)
  | .rvalueToLValue sub, st =>
      let p := codegen_expression sub st
      let ty := p.1.typeOfV p.2
      let q := p.1.emitV (.alloca ty) (.pointer ty)
      (q.1.emitStore p.2 q.2, q.2)
  | .assign lhs rhs, st =>
      let pl := codegen_expression lhs st
      let pr := codegen_expression rhs pl.1
      (pr.1.emitStore pr.2 pl.2, pr.2)
  | .binaryOperator k lhs rhs, st =>
      let pl := codegen_expression lhs st
      let pr := codegen_expression rhs pl.1
      codegen_binop_apply k pr.1 pl.2 pr.2
  | .unaryOperator .IntMinus sub, st =>
      let p := codegen_expression sub st
      let c := const_int p.1 (codegen_type .Int) 0
      c.1.emitV (.arith .sub (c.1.typeOfV c.2) c.2 p.2) (c.1.typeOfV c.2)
  | .unaryOperator .DoubleMinus sub, st =>
      let p := codegen_expression sub st
      let c := p.1.emitV (.constReal (codegen_type .Double)) (codegen_type .Double)
      c.1.emitV (.arith .fsub (c.1.typeOfV c.2) c.2 p.2) (c.1.typeOfV c.2)
  | .unaryOperator .BooleanNot sub, st =>
      let p := codegen_expression sub st
      p.1.emitV (.notInstr p.2) (p.1.typeOfV p.2)
  | .unaryOperator .PointerDeref sub, st => codegen_expression sub st
  | .lvalueUnaryOperator .IntIncrement sub, st => codegen_incdecrement true sub st
  | .lvalueUnaryOperator .IntDecrement sub, st => codegen_incdecrement false sub st
  | .lvalueUnaryOperator .LValueToPtr sub, st => codegen_expression sub st

/-- `codegen_incdecrement` (src/backend/mod.rs lines 532-547), line by line:
evaluate the place operand once to a pointer; build the constant 1 at the
interned Int type; load through the pointer; add or subtract the constant
(`build_add(value, c1)` — the loaded value is the left operand, so the
result type is the loaded value's type); store the result back through the
pointer; and return the pointer itself. -/
def codegen_incdecrement (inc : Bool) (sub : BExpr) (st : EState) :
    EState × Nat :=
  let p := codegen_expression sub st
  let c := const_int p.1 (codegen_type .Int) 1
  let l := c.1.emitV (.load p.2) ((c.1.typeOfV p.2).pointee)
  let a := l.1.emitV
    (.arith (if inc then .add else .sub) (l.1.typeOfV l.2) l.2 c.2)
    (l.1.typeOfV l.2)
  (a.1.emitStore a.2 p.2, p.2)

end

/-- Expression categories of spec §4.3's lvalue/rvalue discipline: an
expression either designates storage (a place — the backend hands back a
pointer to it) or yields a datum (an rvalue). -/
inductive Cat where
  | rvalue
  | place
  deriving DecidableEq, Repr

/-- The LLVM type the backend's lowering of an expression of front-end type
`t` produces: the lowered `t` for an rvalue, a pointer to it for a place. -/
def catTy : Cat → Ty → LLVMType
  | .rvalue, t => codegen_type t
  | .place, t => .pointer (codegen_type t)

/-- The front-end type of a literal. -/
def litTy : ir.Literal → Ty
  | .IntLiteral _ => .Int
  | .DoubleLiteral _ => .Double
  | .BooleanLiteral _ => .Boolean
  | .StringLiteral _ => .String

/-- Operand and result types of the scalar monomorphic operators, per the
§4.3 table (and `binop_typeck`); the pointer operators are typed by
dedicated `WT` rules and `PtrDiff` by none (its lowering is
unimplemented). -/
def binopSig : BinaryOperatorKind → Option (Ty × Ty × Ty)
  | .IntPlus => some (.Int, .Int, .Int)
  | .DoublePlus => some (.Double, .Double, .Double)
  | .IntMinus => some (.Int, .Int, .Int)
  | .DoubleMinus => some (.Double, .Double, .Double)
  | .IntMultiply => some (.Int, .Int, .Int)
  | .DoubleMultiply => some (.Double, .Double, .Double)
  | .IntDivide => some (.Int, .Int, .Int)
  | .DoubleDivide => some (.Double, .Double, .Double)
  | .IntModulo => some (.Int, .Int, .Int)
  | .IntEqual => some (.Int, .Int, .Boolean)
  | .DoubleEqual => some (.Double, .Double, .Boolean)
  | .BooleanEqual => some (.Boolean, .Boolean, .Boolean)
  | .IntNotEqual => some (.Int, .Int, .Boolean)
  | .DoubleNotEqual => some (.Double, .Double, .Boolean)
  | .BooleanNotEqual => some (.Boolean, .Boolean, .Boolean)
  | .IntLess => some (.Int, .Int, .Boolean)
  | .DoubleLess => some (.Double, .Double, .Boolean)
  | .IntLessEqual => some (.Int, .Int, .Boolean)
  | .DoubleLessEqual => some (.Double, .Double, .Boolean)
  | .IntGreater => some (.Int, .Int, .Boolean)
  | .DoubleGreater => some (.Double, .Double, .Boolean)
  | .IntGreaterEqual => some (.Int, .Int, .Boolean)
  | .DoubleGreaterEqual => some (.Double, .Double, .Boolean)
  | .PtrPlusOffset => none
  | .PtrMinusOffset => none
  | .PtrDiff => none

/-- Well-typed IR expressions, modelled from spec §3's IR invariants: every
expression carries a category and a type agreeing with its operator per the
§4.3 tables; operands consumed as values are wrapped in `LValueToRValue`,
place-requiring operands are places or wrapped in `RValueToLValue`;
`++`/`--` take an Int place and yield the place; `&` takes a place of `t`
and yields `Pointer t`; `*` takes a `Pointer t` rvalue and yields a place of
`t`. -/
inductive WT (Γ : List (Nat × Ty)) : BExpr → Cat → Ty → Prop where
  | lit (l : ir.Literal) : WT Γ (.value (.literal l)) .rvalue (litTy l)
  | localVar (id : Nat) (t : Ty) : Γ.lookup id = some t →
      WT Γ (.value (.localVar id)) .place t
  | l2r (e : BExpr) (t : Ty) : WT Γ e .place t →
      WT Γ (.lvalueToRValue e) .rvalue t
  | r2l (e : BExpr) (t : Ty) : WT Γ e .rvalue t →
      WT Γ (.rvalueToLValue e) .place t
  | assignE (l r : BExpr) (t : Ty) : WT Γ l .place t → WT Γ r .rvalue t →
      WT Γ (.assign l r) .rvalue t
  | binop (k : BinaryOperatorKind) (l r : BExpr) (tl tr tres : Ty) :
      binopSig k = some (tl, tr, tres) →
      WT Γ l .rvalue tl → WT Γ r .rvalue tr →
      WT Γ (.binaryOperator k l r) .rvalue tres
  | ptrPlus (l r : BExpr) (t : Ty) :
      WT Γ l .rvalue (.Pointer t) → WT Γ r .rvalue .Int →
      WT Γ (.binaryOperator .PtrPlusOffset l r) .rvalue (.Pointer t)
  | ptrMinus (l r : BExpr) (t : Ty) :
      WT Γ l .rvalue (.Pointer t) → WT Γ r .rvalue .Int →
      WT Γ (.binaryOperator .PtrMinusOffset l r) .rvalue (.Pointer t)
  | intNeg (e : BExpr) : WT Γ e .rvalue .Int →
      WT Γ (.unaryOperator .IntMinus e) .rvalue .Int
  | doubleNeg (e : BExpr) : WT Γ e .rvalue .Double →
      WT Γ (.unaryOperator .DoubleMinus e) .rvalue .Double
  | boolNot (e : BExpr) : WT Γ e .rvalue .Boolean →
      WT Γ (.unaryOperator .BooleanNot e) .rvalue .Boolean
  | deref (e : BExpr) (t : Ty) : WT Γ e .rvalue (.Pointer t) →
      WT Γ (.unaryOperator .PointerDeref e) .place t
  | inc (e : BExpr) : WT Γ e .place .Int →
      WT Γ (.lvalueUnaryOperator .IntIncrement e) .place .Int
  | dec (e : BExpr) : WT Γ e .place .Int →
      WT Γ (.lvalueUnaryOperator .IntDecrement e) .place .Int
  | addr (e : BExpr) (t : Ty) : WT Γ e .place t →
      WT Γ (.lvalueUnaryOperator .LValueToPtr e) .rvalue (.Pointer t)

/-- The emitter state respects a typing environment: every local of the
environment has a stack slot whose SSA value is a pointer to the lowered
type of the local (as `codegen_parameter`/`codegen_vardecl`, src/backend/
mod.rs lines 182-200, set up by `build_alloca`). -/
def EState.ok (Γ : List (Nat × Ty)) (st : EState) : Prop :=
  ∀ id t, Γ.lookup id = some t →
    ∃ v, st.locals.lookup id = some v ∧ v < st.tys.length ∧
      st.typeOfV v = .pointer (codegen_type t)

/-- `st'` extends `st`: values and their types are preserved, the locals map
is untouched, and the emitted code grows by a suffix. -/
def EState.ext (st st' : EState) : Prop :=
  st.tys.length ≤ st'.tys.length ∧
  (∀ i, i < st.tys.length → st'.tys.getD i .void = st.tys.getD i .void) ∧
  st'.locals = st.locals ∧
  ∃ tail, st'.ecode = st.ecode ++ tail

/-- Whether an instruction keeps integer arithmetic at the i32 width: true
for everything except an integer `arith` instruction at a type other than
`i32`. -/
def intArithAt32 : EInstr → Bool
  | .arith op ty _ _ => !op.isIntArith || (ty == .int 32)
  | _ => true

/-- Whether a statement is one of the three terminators. -/
def isTerminator : Stmt → Bool
  | .Return _ => true
  | .Break => true
  | .Continue => true
  | _ => false

end backend

namespace lexer

/-- `lexer::Token` — its defining module (src/lexer/token.rs) is not under
src/, so the constructor list is read off the uses in src/lexer/mod.rs.
Identifiers and string literals carry their matched text; integer literals
carry the parsed non-negative decimal value (the regex is `^[0-9]+`, parsed
into an `i64`); double literals carry their matched text — the `f64` parse
is not modelled because on text matched by the double regex it cannot
fail. -/
inductive Token where
  | DotDotDot
  | LeftParenthesis
  | RightParenthesis
  | LeftBracket
  | RightBracket
  | LeftSquare
  | RightSquare
  | SemiColon
  | Colon
  | Comma
  | Dot
  | Arrow
  | EqualEqual
  | BangEqual
  | PlusPlus
  | MinusMinus
  | LessEqual
  | GreaterEqual
  | PipePipe
  | AmpAmp
  | Amp
  | Equal
  | Plus
  | Minus
  | Star
  | Slash
  | Percent
  | Less
  | Greater
  | Bang
  | ExternKeyword
  | WhileKeyword
  | ForKeyword
  | IfKeyword
  | ElseKeyword
  | ReturnKeyword
  | BooleanLiteral (b : Bool)
  | ContinueKeyword
  | BreakKeyword
  | StructKeyword
  | AsKeyword
  | FnKeyword
  | LetKeyword
  | NullptrKeyword
  | Identifier (s : String)
  | IntegerLiteral (n : Nat)
  | DoubleLiteral (s : String)
  | StringLiteral (s : String)
  | EOF
  deriving DecidableEq, Repr

/-- `errors::LexingError`, as produced in src/lexer/mod.rs. -/
inductive LexingError where
  | UnknownChar (c : Char)
  | UnparsableNumber
  | ReservedIdentifier (s : String)
  deriving DecidableEq, Repr

/-- `codemap::Span` as used by the lexer: `Span::new_with_len(start, len)`
records a start offset and a length; `Span::new_one(pos)` is the one-column
span at `pos`. -/
structure Span where
  start : Nat
  len : Nat
  deriving DecidableEq, Repr

/-- `LexingResult<Spanned<Token>>`: either a spanned token or a spanned
lexing error. -/
abbrev LexingResult := Except (LexingError × Span) (Token × Span)

/-- First character class of `IDENTIFIER_REGEX` `^[a-zA-Z_][a-zA-Z0-9_]*`. -/
def identStart (c : Char) : Bool := c.isAlpha || c = '_'

/-- Continuation character class of `IDENTIFIER_REGEX`. -/
def identCont (c : Char) : Bool := c.isAlphanum || c = '_'

/-- The `match_literal!` chain of `next_token` (src/lexer/mod.rs lines
98-129) in source order.  Each entry is tried with `starts_with`; the first
match wins and consumes its length. -/
def literalTokens : List (List Char × Token) :=
  [(['.', '.', '.'], .DotDotDot),
   (['('], .LeftParenthesis),
   ([')'], .RightParenthesis),
   (['\x7b'], .LeftBracket),
   (['\x7d'], .RightBracket),
   (['['], .LeftSquare),
   ([']'], .RightSquare),
   ([';'], .SemiColon),
   ([':'], .Colon),
   ([','], .Comma),
   (['.'], .Dot),
   (['-', '>'], .Arrow),
   (['=', '='], .EqualEqual),
   (['!', '='], .BangEqual),
   (['+', '+'], .PlusPlus),
   (['-', '-'], .MinusMinus),
   (['<', '='], .LessEqual),
   (['>', '='], .GreaterEqual),
   (['|', '|'], .PipePipe),
   (['&', '&'], .AmpAmp),
   (['&'], .Amp),
   (['='], .Equal),
   (['+'], .Plus),
   (['-'], .Minus),
   (['*'], .Star),
   (['/'], .Slash),
   (['%'], .Percent),
   (['<'], .Less),
   (['>'], .Greater),
   (['!'], .Bang)]

/-- Result of the `match_literal!` chain on the remaining input. -/
def matchLiteralTok (cs : List Char) : Option (Token × Nat) :=
  (literalTokens.find? (fun p => p.1.isPrefixOf cs)).map fun p => (p.2, p.1.length)

/-- The keyword arms of the identifier branch (src/lexer/mod.rs lines
134-149). -/
def keywordTok : String → Option Token
  | "extern" => some .ExternKeyword
  | "while" => some .WhileKeyword
  | "for" => some .ForKeyword
  | "if" => some .IfKeyword
  | "else" => some .ElseKeyword
  | "return" => some .ReturnKeyword
  | "true" => some (.BooleanLiteral true)
  | "false" => some (.BooleanLiteral false)
  | "continue" => some .ContinueKeyword
  | "break" => some .BreakKeyword
  | "struct" => some .StructKeyword
  | "as" => some .AsKeyword
  | "fn" => some .FnKeyword
  | "let" => some .LetKeyword
  | "nullptr" => some .NullptrKeyword
  | _ => none

/-- Maximal match of `IDENTIFIER_REGEX` at the head of the input. -/
def identMatch : List Char → Option (List Char)
  | [] => none
  | c :: rest =>
      if identStart c then some (c :: rest.takeWhile identCont) else none

/-- Decimal value of a digit string. -/
def digitsToNat (ds : List Char) : Nat :=
  ds.foldl (fun a c => a * 10 + (c.toNat - 48)) 0

/-- Length of the greedy optional exponent group `([eE][+-]?[0-9]+)?` of
`DOUBLE_REGEX` (0 when the group does not match). -/
def matchExpLen (cs : List Char) : Nat :=
  match cs with
  | c :: rest =>
      if c = 'e' ∨ c = 'E' then
        match rest with
        | s :: rest2 =>
            if s = '+' ∨ s = '-' then
              let ds := rest2.takeWhile Char.isDigit
              if ds.isEmpty then 0 else 2 + ds.length
            else
              let ds := (s :: rest2).takeWhile Char.isDigit
              if ds.isEmpty then 0 else 1 + ds.length
        | [] => 0
      else 0
  | [] => 0

/-- Match length of `DOUBLE_REGEX` `^[0-9]*\.[0-9]+([eE][+-]?[0-9]+)?` at
the head of the input. -/
def matchDoubleLen (cs : List Char) : Option Nat :=
  let intPart := cs.takeWhile Char.isDigit
  match cs.drop intPart.length with
  | '.' :: rest =>
      let frac := rest.takeWhile Char.isDigit
      if frac.isEmpty then none
      else some (intPart.length + 1 + frac.length + matchExpLen (rest.drop frac.length))
  | _ => none

/-- Match length of `INTEGER_REGEX` `^[0-9]+` at the head of the input. -/
def matchIntegerLen (cs : List Char) : Option Nat :=
  let ds := cs.takeWhile Char.isDigit
  if ds.isEmpty then none else some ds.length

/-- Scan for the closing quote of a string literal, where `\"` stays inside
the literal; returns the scanned length including the closing quote. -/
def stringScan : List Char → Option Nat
  | '\\' :: '"' :: rest => (stringScan rest).map (· + 2)
  | '"' :: _ => some 1
  | _ :: rest => (stringScan rest).map (· + 1)
  | [] => none

/-- Match length of `STRING_REGEX` `^"(([^"]|\\")*[^\\])?"` at the head of
the input.  The regex's backtracking search is modelled by the escape-aware
scan `stringScan`; any difference is confined to which token text a
successful match carries and cannot change which error kind `next_token`
produces. -/
def matchStringLen : List Char → Option Nat
  | '"' :: rest => (stringScan rest).map (· + 1)
  | _ => none

/-- Rust regex `\s` restricted to ASCII whitespace (non-ASCII Unicode
whitespace is not modelled; the sources are ASCII). -/
def isWS (c : Char) : Bool :=
  c = ' ' || c = '\t' || c = '\n' || c = '\r' || c = '\x0b' || c = '\x0c'

/-- Shortest-match search of `BLOCK_COMMENT`'s non-greedy body: length up to
and including the first `*/`. -/
def findBlockCloseLen : List Char → Option Nat
  | '*' :: '/' :: _ => some 2
  | _ :: rest => (findBlockCloseLen rest).map (· + 1)
  | [] => none

/-- One pass over `SKIPABLE` in order (src/lexer/mod.rs lines 8-15:
WHITESPACES `^\s+`, LINE_COMMENT `^//.*`, LINE_PP_COMMENT `^#.*`,
BLOCK_COMMENT `^/\*(.|[\r\n])*?\*/`): the number of characters the first
matching regex consumes at the head, if any.  A successful match always
consumes at least one character. -/
def skipOneLen (cs : List Char) : Option Nat :=
  let ws := cs.takeWhile isWS
  if !ws.isEmpty then some ws.length
  else
    match cs with
    | '/' :: '/' :: rest => some (2 + (rest.takeWhile (fun c => c ≠ '\n')).length)
    | '#' :: rest => some (1 + (rest.takeWhile (fun c => c ≠ '\n')).length)
    | '/' :: '*' :: rest => (findBlockCloseLen rest).map (2 + ·)
    | _ => none

/-- `skip_whitespaces` (src/lexer/mod.rs lines 40-50): repeat `skipOneLen`
until nothing matches; returns the total number of skipped characters.
Fuel-indexed — every successful pass consumes at least one character, so
the input length is enough fuel. -/
def skipAllFrom (fuel : Nat) (cs : List Char) : Nat :=
  match fuel with
  | 0 => 0
  | fuel + 1 =>
      match skipOneLen cs with
      | some n => n + skipAllFrom fuel (cs.drop n)
      | none => 0

/-- The token-matching tail of `next_token` (src/lexer/mod.rs lines 89-198)
on the remaining input `rest` starting at offset `pos`, after whitespace
skipping: the EOF check, the `match_literal!` chain, then the identifier
(with the keyword table and the `___` reservation check), double, integer
and string regexes in source order, else `UnknownChar` with a one-column
span.  The one-slot peek buffer (lines 85-87) only replays an earlier
result and is not modelled. -/
def nextTokenCore (rest : List Char) (pos eof_pos : Nat) : LexingResult :=
  match rest with
  | [] => .ok (.EOF, ⟨eof_pos, 1⟩)
  | c :: cs =>
      match matchLiteralTok (c :: cs) with
      | some (tok, len) => .ok (tok, ⟨pos, len⟩)
      | none =>
          match identMatch (c :: cs) with
          | some s =>
              let str := String.mk s
              match keywordTok str with
              | some tok => .ok (tok, ⟨pos, s.length⟩)
              | none =>
                  if ['_', '_', '_'].isPrefixOf s then
                    .error (.ReservedIdentifier str, ⟨pos, s.length⟩)
                  else
                    .ok (.Identifier str, ⟨pos, s.length⟩)
          | none =>
              match matchDoubleLen (c :: cs) with
              | some len => .ok (.DoubleLiteral (String.mk ((c :: cs).take len)), ⟨pos, len⟩)
              | none =>
                  match matchIntegerLen (c :: cs) with
                  | some len =>
                      let n := digitsToNat ((c :: cs).take len)
                      if n ≤ 2 ^ 63 - 1 then .ok (.IntegerLiteral n, ⟨pos, len⟩)
                      else .error (.UnparsableNumber, ⟨pos, len⟩)
                  | none =>
                      match matchStringLen (c :: cs) with
                      | some len =>
                          .ok (.StringLiteral (String.mk ((c :: cs).take len)), ⟨pos, len⟩)
                      | none => .error (.UnknownChar c, ⟨pos, 1⟩)

/-- The token-matching tail of `next_token` at position `pos` of `input`:
`nextTokenCore` on the text at `pos` (the EOF span starts at the input
length, per `Span::new_with_len(self.input.len(), 1)`). -/
def nextTokenAt (input : List Char) (pos : Nat) : LexingResult :=
  nextTokenCore (input.drop pos) pos input.length

/-- `next_token` on a fresh lexer (empty buffer, position 0): skip
whitespace and comments, then match one token. -/
def next_token (input : List Char) : LexingResult :=
  nextTokenAt input (skipAllFrom input.length input)

/-- Claim-side characterization for C9, from the claim's words: the next
token is a reserved identifier exactly when the text at `pos` begins with a
maximal identifier (`[A-Za-z_][A-Za-z0-9_]*`) that is not a keyword and
whose text begins with three underscores; the span covers the whole matched
identifier. -/
def reservedCore (rest : List Char) (pos : Nat) : Option (String × Span) :=
  match identMatch rest with
  | some s =>
      if (keywordTok (String.mk s)).isNone && ['_', '_', '_'].isPrefixOf s then
        some (String.mk s, ⟨pos, s.length⟩)
      else none
  | none => none

/-- `reservedCore` on the text at `pos` of `input`. -/
def reservedAt (input : List Char) (pos : Nat) : Option (String × Span) :=
  reservedCore (input.drop pos) pos

/-- The reserved-identifier projection of a lexing result. -/
def reservedOf : LexingResult → Option (String × Span)
  | .error (.ReservedIdentifier s, sp) => some (s, sp)
  | _ => none

end lexer

/-- The §4.3 operator-selection table stated from the spec's words, restricted
to the rows the IR operator enum can express: the Int, Double and Boolean
rows.  The spec's two pointer rows ((+, Ptr T, Int) → PtrPlusOffset and
(-, Ptr T, Ptr T) → PtrDiff) have no counterpart in `ir::BinaryOperatorKind`
and are absent here; every operand pair outside the table yields `none`. -/
def binop_selection_table (op : ast.BinaryOperatorKind) (l r : Ty) :
    Option (Ty × ir.BinaryOperatorKind) :=
  match l, r with
  | .Int, .Int =>
    match op with
    | .Plus => some (.Int, .IntPlus)
    | .Minus => some (.Int, .IntMinus)
    | .Multiply => some (.Int, .IntMultiply)
    | .Divide => some (.Int, .IntDivide)
    | .Modulo => some (.Int, .IntModulo)
    | .Equal => some (.Boolean, .IntEqual)
    | .NotEqual => some (.Boolean, .IntNotEqual)
    | .Less => some (.Boolean, .IntLess)
    | .LessEqual => some (.Boolean, .IntLessEqual)
    | .Greater => some (.Boolean, .IntGreater)
    | .GreaterEqual => some (.Boolean, .IntGreaterEqual)
  | .Double, .Double =>
    match op with
    | .Plus => some (.Double, .DoublePlus)
    | .Minus => some (.Double, .DoubleMinus)
    | .Multiply => some (.Double, .DoubleMultiply)
    | .Divide => some (.Double, .DoubleDivide)
    | .Modulo => none
    | .Equal => some (.Boolean, .DoubleEqual)
    | .NotEqual => some (.Boolean, .DoubleNotEqual)
    | .Less => some (.Boolean, .DoubleLess)
    | .LessEqual => some (.Boolean, .DoubleLessEqual)
    | .Greater => some (.Boolean, .DoubleGreater)
    | .GreaterEqual => some (.Boolean, .DoubleGreaterEqual)
  | .Boolean, .Boolean =>
    match op with
    | .Equal => some (.Boolean, .BooleanEqual)
    | .NotEqual => some (.Boolean, .BooleanNotEqual)
    | _ => none
  | _, _ => none

/-- Claim C1 (counterexample): the claim asserts that `binop_typeck` realizes
the §4.3 pointer rows, in particular that `(+, Pointer Int, Int)` yields
`some (Pointer Int, PtrPlusOffset)` and `(-, Pointer Int, Pointer Int)`
yields `some (Int, PtrDiff)`.  In the code both operand pairs fall into the
catch-all arm and return `None`. -/
theorem binop_typeck_no_pointer_rows :
    binop_typeck .Plus (Ty.Pointer Ty.Int) Ty.Int = none ∧
    binop_typeck .Minus (Ty.Pointer Ty.Int) (Ty.Pointer Ty.Int) = none := by
  exact ⟨rfl, rfl⟩

/-- Claim C1 (amended): for every AST binary operator and every pair of
operand types, `binop_typeck` returns exactly the pairing of the §4.3
selection table's Int, Double and Boolean rows — result type and monomorphic
IR operator — and returns `none` for every other operand pair, including all
pointer pairs (the table's pointer rows are not implemented) and the unlisted
pairs such as (%, Double, Double) and (<, Boolean, Boolean). -/
theorem binop_typeck_eq_selection_table :
    ∀ (op : ast.BinaryOperatorKind) (l r : Ty),
      binop_typeck op l r = binop_selection_table op l r := by
  intro op l r
  cases op <;> cases l <;> cases r <;> rfl

/-- Claim C3 (counterexample): the claim asserts the IR contains no dedicated
lazy-operator node.  In src/ir/mod.rs, `ir::Expression` has a `LazyOperator`
variant and `ir::LazyOperatorKind` has the kinds `BooleanLogicalAnd` and
`BooleanLogicalOr`; here is a concrete IR expression that is such a node
(`true && true`). -/
theorem ir_has_lazy_operator_node :
    ir.exprForm
      (ir.Expression.LazyOperator ir.LazyOperatorKind.BooleanLogicalAnd
        (.mk .Boolean (.Literal (.BooleanLiteral true)))
        (.mk .Boolean (.Literal (.BooleanLiteral true)))) =
      ir.ExprForm.lazyOperator := rfl

/-- Claim C3 (amended): the IR represents `a && b` and `a || b` with a
dedicated `LazyOperator` expression node whose kinds are exactly
`BooleanLogicalAnd` and `BooleanLogicalOr`; the short-circuit operators are
not desugared to a ternary — the IR expression type has no
ternary/conditional variant at all. -/
theorem lazy_operators_are_dedicated_ir_nodes :
    (∀ (k : ir.LazyOperatorKind) (l r : ir.TypedExpression),
        ir.exprForm (ir.Expression.LazyOperator k l r) = ir.ExprForm.lazyOperator) ∧
    (∀ k : ir.LazyOperatorKind,
        k = .BooleanLogicalAnd ∨ k = .BooleanLogicalOr) ∧
    (∀ e : ir.Expression, ir.exprForm e ≠ ir.ExprForm.ternary) := by
  refine ⟨fun k l r => rfl, fun k => ?_, fun e => ?_⟩
  · cases k
    · exact Or.inl rfl
    · exact Or.inr rfl
  · cases e <;> simp [ir.exprForm]

/-- Claim C5 (counterexample): the claim asserts the IR statement type has no
distinct While form.  In src/ir/mod.rs, `ir::Statement` has a `While`
variant; here is a concrete IR statement that is a `While` node. -/
theorem ir_has_while_form :
    ir.stmtForm
      (ir.Statement.While (.mk .Boolean (.Literal (.BooleanLiteral true))) []) =
      ir.StmtForm.whileS := rfl

/-- Claim C5 (amended): the IR statement forms are exactly Block, VarDecl,
If, While, Return (with a mandatory expression), Expression, Break and
Continue; `while` is kept as a distinct While form and there is no For form
at all, so no While-to-For normalization happens in the IR. -/
theorem ir_statement_forms :
    ∀ s : ir.Statement,
      ir.stmtForm s ≠ ir.StmtForm.forS ∧
      (ir.stmtForm s = .blockS ∨ ir.stmtForm s = .varDeclS ∨
       ir.stmtForm s = .ifS ∨ ir.stmtForm s = .whileS ∨
       ir.stmtForm s = .returnS ∨ ir.stmtForm s = .expressionS ∨
       ir.stmtForm s = .breakS ∨ ir.stmtForm s = .continueS) := by
  intro s
  cases s <;> simp [ir.stmtForm]

/-- Claim C4 (counterexample): the claim asserts `codegen_binop`'s dispatch
is total and never aborts the compiler, in particular on `PtrDiff`.  The
`PtrDiff` arm of the match is `unimplemented!()`, which panics: no builder is
selected (modelled as `none`). -/
theorem codegen_binop_ptrdiff_aborts :
    backend.codegen_binop_builder .PtrDiff = none := rfl

/-- Claim C4 (amended): for every monomorphic binary operator kind except
`PtrDiff`, `codegen_binop` selects a builder function and emits an
instruction normally; the `PtrDiff` arm alone aborts the compiler via
`unimplemented!()`. -/
theorem codegen_binop_total_except_ptrdiff :
    ∀ k : backend.BinaryOperatorKind, k ≠ .PtrDiff →
      (backend.codegen_binop_builder k).isSome = true := by
  intro k h
  cases k <;> first | rfl | exact absurd rfl h

/-- Witness for `codegen_binop_total_except_ptrdiff` at `IntPlus`. -/
theorem codegen_binop_total_except_ptrdiff_witness :
    (backend.BinaryOperatorKind.IntPlus ≠ .PtrDiff) ∧
    (backend.codegen_binop_builder .IntPlus).isSome = true :=
  ⟨by decide, codegen_binop_total_except_ptrdiff .IntPlus (by decide)⟩

/-- Claim C7: every Double comparison operator is lowered by `codegen_binop`
to the corresponding unordered IEEE-754 predicate — `DoubleEqual` to UEQ,
`DoubleNotEqual` to UNE, `DoubleLess` to ULT, `DoubleLessEqual` to ULE,
`DoubleGreater` to UGT, `DoubleGreaterEqual` to UGE — and no operator kind at
all selects an ordered floating-point predicate. -/
theorem double_comparisons_use_unordered_predicates :
    backend.codegen_binop_builder .DoubleEqual = some (.fcmp .RealUEQ) ∧
    backend.codegen_binop_builder .DoubleNotEqual = some (.fcmp .RealUNE) ∧
    backend.codegen_binop_builder .DoubleLess = some (.fcmp .RealULT) ∧
    backend.codegen_binop_builder .DoubleLessEqual = some (.fcmp .RealULE) ∧
    backend.codegen_binop_builder .DoubleGreater = some (.fcmp .RealUGT) ∧
    backend.codegen_binop_builder .DoubleGreaterEqual = some (.fcmp .RealUGE) ∧
    ∀ k : backend.BinaryOperatorKind,
      backend.usesOrderedFcmp (backend.codegen_binop_builder k) = false := by
  refine ⟨rfl, rfl, rfl, rfl, rfl, rfl, ?_⟩
  intro k
  cases k <;> rfl

/-- Claim C2 (failing input): lowering `for (e;c;) { for (e;c;) {} break; }`
from the entry state allocates blocks 1/2/3 as the outer loop's
loop/then/end blocks and 4/5/6 as the inner loop's.  Because `codegen_for`
never restores `current_break` after lowering the inner loop, the `break`
that follows the complete inner loop emits `br` to block 6 — the *inner*
(already finished) loop's end block, a branch back into the block the
builder is currently filling — whereas the spec-mandated lowering
(`spec_statement`, which targets the innermost *enclosing* loop) emits `br`
to block 3, the outer loop's end block.  The two emissions differ in
exactly that one instruction. -/
theorem break_after_inner_loop_targets_inner_end :
    (backend.codegen_statement backend.nested_break_program
        backend.function_entry_state).code =
      [(0, .exprCode), (0, .br (some 1)), (1, .exprCode), (1, .condBr 2 3),
       (2, .exprCode), (2, .br (some 4)), (4, .exprCode), (4, .condBr 5 6),
       (5, .br (some 4)), (6, .br (some 6)), (7, .br (some 1))] ∧
    (backend.spec_statement backend.nested_break_program
        backend.function_entry_state).code =
      [(0, .exprCode), (0, .br (some 1)), (1, .exprCode), (1, .condBr 2 3),
       (2, .exprCode), (2, .br (some 4)), (4, .exprCode), (4, .condBr 5 6),
       (5, .br (some 4)), (6, .br (some 3)), (7, .br (some 1))] := by
  exact ⟨by decide, by decide⟩

/-- Claim C6: after emitting each terminator statement (`return`, `break`,
`continue`), the backend opens a fresh successor basic block (the next
unallocated id) and positions the builder there, emitting nothing into that
fresh block itself — every instruction the terminator adds goes to the block
the builder was previously positioned at; and after lowering a function's
entire body, `codegen_block_statement_terminated` ends the fall-through path
with an `unreachable` instruction in the final insertion block. -/
theorem terminators_open_fresh_block_and_body_ends_unreachable :
    (∀ (st : backend.Stmt) (s : backend.CGState),
      backend.isTerminator st = true →
      (backend.codegen_statement st s).current_bb = s.next_bb ∧
      (backend.codegen_statement st s).next_bb = s.next_bb + 1 ∧
      ∀ p ∈ (backend.codegen_statement st s).code,
        p ∈ s.code ∨ p.1 = s.current_bb) ∧
    (∀ (block : List backend.Stmt) (s : backend.CGState),
      (backend.codegen_block_statement_terminated block s).code =
        (backend.codegen_block_statement block s).code ++
          [((backend.codegen_block_statement block s).current_bb,
            .unreachableInstr)]) := by
  constructor
  · intro st s hterm
    cases st with
    | Return has_value =>
      cases has_value with
      | true =>
        refine ⟨rfl, rfl, ?_⟩
        intro p hp
        have h : (backend.codegen_statement (.Return true) s).code =
            (s.code ++ [(s.current_bb, .exprCode)]) ++
              [(s.current_bb, .ret)] := rfl
        rw [h, List.mem_append, List.mem_append, List.mem_singleton,
          List.mem_singleton] at hp
        rcases hp with (h1 | h1) | h1
        · exact Or.inl h1
        · exact Or.inr (by rw [h1])
        · exact Or.inr (by rw [h1])
      | false =>
        refine ⟨rfl, rfl, ?_⟩
        intro p hp
        have h : (backend.codegen_statement (.Return false) s).code =
            s.code ++ [(s.current_bb, .retVoid)] := rfl
        rw [h, List.mem_append, List.mem_singleton] at hp
        rcases hp with h1 | h1
        · exact Or.inl h1
        · exact Or.inr (by rw [h1])
    | Break =>
      refine ⟨rfl, rfl, ?_⟩
      intro p hp
      have h : (backend.codegen_statement .Break s).code =
          s.code ++ [(s.current_bb, .br s.current_break)] := rfl
      rw [h, List.mem_append, List.mem_singleton] at hp
      rcases hp with h1 | h1
      · exact Or.inl h1
      · exact Or.inr (by rw [h1])
    | Continue =>
      refine ⟨rfl, rfl, ?_⟩
      intro p hp
      have h : (backend.codegen_statement .Continue s).code =
          s.code ++ [(s.current_bb, .br s.current_continue)] := rfl
      rw [h, List.mem_append, List.mem_singleton] at hp
      rcases hp with h1 | h1
      · exact Or.inl h1
      · exact Or.inr (by rw [h1])
    | Block b => exact absurd hterm (by simp [backend.isTerminator])
    | If b e => exact absurd hterm (by simp [backend.isTerminator])
    | For i st b => exact absurd hterm (by simp [backend.isTerminator])
    | ExprStmt => exact absurd hterm (by simp [backend.isTerminator])
  · intro block s
    rfl

namespace backend

theorem getD_append_lt (l l2 : List LLVMType) (i : Nat) (h : i < l.length) :
    (l ++ l2).getD i .void = l.getD i .void := by
  simp [List.getD, List.getElem?_append_left h]

theorem getD_append_len (l : List LLVMType) (a : LLVMType) :
    (l ++ [a]).getD l.length .void = a := by
  simp [List.getD, List.getElem?_concat_length]

/-- Instructions already present plus only width-clean new ones. -/
def codeOK (st st' : EState) : Prop :=
  ∀ i ∈ st'.ecode, i ∈ st.ecode ∨ intArithAt32 i = true

theorem codeOK_refl (st : EState) : codeOK st st := fun _ h => Or.inl h

theorem codeOK_trans {s1 s2 s3 : EState} (h1 : codeOK s1 s2) (h2 : codeOK s2 s3) :
    codeOK s1 s3 := by
  intro i hi
  rcases h2 i hi with h | h
  · exact h1 i h
  · exact Or.inr h

theorem ext_refl (st : EState) : st.ext st :=
  ⟨le_refl _, fun _ _ => rfl, rfl, [], by simp⟩

theorem ext_trans {s1 s2 s3 : EState} (h1 : s1.ext s2) (h2 : s2.ext s3) :
    s1.ext s3 := by
  obtain ⟨hl1, ht1, hloc1, t1, hc1⟩ := h1
  obtain ⟨hl2, ht2, hloc2, t2, hc2⟩ := h2
  refine ⟨le_trans hl1 hl2, fun i hi => (ht2 i (lt_of_lt_of_le hi hl1)).trans (ht1 i hi),
    hloc2.trans hloc1, t1 ++ t2, ?_⟩
  rw [hc2, hc1, List.append_assoc]

theorem ext_emitV (st : EState) (i : EInstr) (ty : LLVMType) :
    st.ext (st.emitV i ty).1 := by
  refine ⟨?_, ?_, rfl, [i], rfl⟩
  · simp [EState.emitV]
  · intro j hj
    exact getD_append_lt _ _ _ hj

theorem ext_emitStore (st : EState) (v p : Nat) : st.ext (st.emitStore v p) :=
  ⟨le_refl _, fun _ _ => rfl, rfl, [.store v p], rfl⟩

theorem typeOfV_ext {s1 s2 : EState} (h : s1.ext s2) {v : Nat}
    (hv : v < s1.tys.length) : s2.typeOfV v = s1.typeOfV v := by
  simpa [EState.typeOfV] using h.2.1 v hv

theorem ok_ext {Γ : List (Nat × Ty)} {s1 s2 : EState} (hok : s1.ok Γ)
    (h : s1.ext s2) : s2.ok Γ := by
  intro id t hid
  obtain ⟨v, hv1, hv2, hv3⟩ := hok id t hid
  refine ⟨v, ?_, lt_of_lt_of_le hv2 h.1, ?_⟩
  · rw [h.2.2.1]
    exact hv1
  · rw [typeOfV_ext h hv2]
    exact hv3

theorem codeOK_emitV (st : EState) (i : EInstr) (ty : LLVMType)
    (hi : intArithAt32 i = true) : codeOK st (st.emitV i ty).1 := by
  intro j hj
  simp only [EState.emitV, List.mem_append, List.mem_singleton] at hj
  rcases hj with h | h
  · exact Or.inl h
  · subst h
    exact Or.inr hi

theorem codeOK_emitStore (st : EState) (v p : Nat) :
    codeOK st (st.emitStore v p) := by
  intro j hj
  simp only [EState.emitStore, List.mem_append, List.mem_singleton] at hj
  rcases hj with h | h
  · exact Or.inl h
  · subst h
    exact Or.inr rfl

theorem typeOfV_emitV_self (st : EState) (i : EInstr) (ty : LLVMType) :
    (st.emitV i ty).1.typeOfV (st.emitV i ty).2 = ty := by
  simp [EState.emitV, EState.typeOfV, getD_append_len]

theorem emitV_lt (st : EState) (i : EInstr) (ty : LLVMType) :
    (st.emitV i ty).2 < (st.emitV i ty).1.tys.length := by
  simp [EState.emitV]

/-- The conclusion bundle of expression-lowering soundness: the result state
still respects the environment, extends the input state, only emits
width-clean instructions, and the result value exists and has the LLVM type
dictated by the expression's category and front-end type. -/
def soundOut (Γ : List (Nat × Ty)) (st : EState) (out : EState × Nat)
    (c : Cat) (t : Ty) : Prop :=
  out.1.ok Γ ∧ st.ext out.1 ∧ codeOK st out.1 ∧
  out.2 < out.1.tys.length ∧ out.1.typeOfV out.2 = catTy c t

theorem soundOut_mono {Γ : List (Nat × Ty)} {st0 st1 : EState}
    (hext : st0.ext st1) (hcode : codeOK st0 st1) {out : EState × Nat}
    {c : Cat} {t : Ty} (h : soundOut Γ st1 out c t) : soundOut Γ st0 out c t :=
  ⟨h.1, ext_trans hext h.2.1, codeOK_trans hcode h.2.2.1, h.2.2.2⟩

theorem soundOut_emitV {Γ : List (Nat × Ty)} {st stm : EState}
    (hok : stm.ok Γ) (hext : st.ext stm) (hcode : codeOK st stm)
    {i : EInstr} {ty : LLVMType} (hi : intArithAt32 i = true)
    {c : Cat} {t : Ty} (hty : ty = catTy c t) :
    soundOut Γ st (stm.emitV i ty) c t := by
  refine ⟨ok_ext hok (ext_emitV stm i ty), ext_trans hext (ext_emitV stm i ty),
    codeOK_trans hcode (codeOK_emitV stm i ty hi), emitV_lt stm i ty, ?_⟩
  rw [typeOfV_emitV_self, hty]

theorem codegen_binop_apply_sound {Γ : List (Nat × Ty)}
    (k : BinaryOperatorKind) (tl tr tres : Ty)
    (hsig : binopSig k = some (tl, tr, tres)) (st : EState) (l r : Nat)
    (hok : st.ok Γ) (htl : st.typeOfV l = codegen_type tl) :
    soundOut Γ st (codegen_binop_apply k st l r) .rvalue tres := by
  cases k
  all_goals
    first
      | exact Option.noConfusion hsig
      | (simp only [binopSig, Option.some.injEq, Prod.mk.injEq] at hsig
         obtain ⟨rfl, rfl, rfl⟩ := hsig
         simp only [codegen_binop_apply, codegen_binop_builder]
         exact soundOut_emitV hok (ext_refl st) (codeOK_refl st)
           (by simp [intArithAt32, ArithOp.isIntArith, htl, codegen_type])
           (by simp [htl, catTy, codegen_type]))

/-- Type soundness of expression lowering on the modelled fragment, by
induction over the typing derivation. -/
theorem codegen_expression_sound {Γ : List (Nat × Ty)} {e : BExpr} {c : Cat}
    {t : Ty} (h : WT Γ e c t) :
    ∀ st : EState, st.ok Γ → soundOut Γ st (codegen_expression e st) c t := by
  induction h with
  | lit l =>
    intro st hok
    cases l with
    | IntLiteral v =>
      simp only [codegen_expression, codegen_literal, const_int]
      refine soundOut_emitV hok (ext_refl st) (codeOK_refl st) ?_ ?_ <;> rfl
    | DoubleLiteral d =>
      simp only [codegen_expression, codegen_literal]
      refine soundOut_emitV hok (ext_refl st) (codeOK_refl st) ?_ ?_ <;> rfl
    | BooleanLiteral b =>
      simp only [codegen_expression, codegen_literal, const_int]
      refine soundOut_emitV hok (ext_refl st) (codeOK_refl st) ?_ ?_ <;> rfl
    | StringLiteral id =>
      simp only [codegen_expression, codegen_literal]
      refine soundOut_emitV ?_ ?_ ?_ ?_ ?_
      · exact ok_ext hok (ext_emitV _ _ _)
      · exact ext_emitV _ _ _
      · exact codeOK_emitV _ _ _ (by rfl)
      · rfl
      · rfl
  | localVar id t hlook =>
    intro st hok
    obtain ⟨v, hv1, hv2, hv3⟩ := hok id t hlook
    simp only [codegen_expression, hv1, Option.getD_some]
    exact ⟨hok, ext_refl st, codeOK_refl st, hv2, hv3⟩
  | l2r e t he ih =>
    intro st hok
    obtain ⟨hok1, hext1, hcode1, hlt1, hty1⟩ := ih st hok
    simp only [codegen_expression]
    refine soundOut_mono hext1 hcode1 ?_
    apply soundOut_emitV hok1 (ext_refl _) (codeOK_refl _)
    · rfl
    · rw [hty1]
      rfl
  | r2l e t he ih =>
    intro st hok
    obtain ⟨hok1, hext1, hcode1, hlt1, hty1⟩ := ih st hok
    simp only [codegen_expression]
    refine soundOut_mono hext1 hcode1 ⟨?_, ?_, ?_, ?_, ?_⟩
    · exact ok_ext hok1 (ext_trans (ext_emitV _ _ _) (ext_emitStore _ _ _))
    · exact ext_trans (ext_emitV _ _ _) (ext_emitStore _ _ _)
    · exact codeOK_trans (codeOK_emitV _ _ _ (by rfl)) (codeOK_emitStore _ _ _)
    · exact emitV_lt (codegen_expression e st).1
        (.alloca ((codegen_expression e st).1.typeOfV (codegen_expression e st).2))
        (.pointer ((codegen_expression e st).1.typeOfV (codegen_expression e st).2))
    · exact (typeOfV_emitV_self (codegen_expression e st).1
        (.alloca ((codegen_expression e st).1.typeOfV (codegen_expression e st).2))
        (.pointer ((codegen_expression e st).1.typeOfV
          (codegen_expression e st).2))).trans
        (by rw [hty1]; try rfl)
  | assignE l r t hl hr ihl ihr =>
    intro st hok
    obtain ⟨hok1, hext1, hcode1, hlt1, hty1⟩ := ihl st hok
    obtain ⟨hok2, hext2, hcode2, hlt2, hty2⟩ :=
      ihr (codegen_expression l st).1 hok1
    simp only [codegen_expression]
    refine ⟨?_, ?_, ?_, ?_, ?_⟩
    · exact ok_ext hok2 (ext_emitStore _ _ _)
    · exact ext_trans hext1 (ext_trans hext2 (ext_emitStore _ _ _))
    · exact codeOK_trans hcode1 (codeOK_trans hcode2 (codeOK_emitStore _ _ _))
    · exact hlt2
    · exact hty2
  | binop k l r tl tr tres hsig hl hr ihl ihr =>
    intro st hok
    obtain ⟨hok1, hext1, hcode1, hlt1, hty1⟩ := ihl st hok
    obtain ⟨hok2, hext2, hcode2, hlt2, hty2⟩ :=
      ihr (codegen_expression l st).1 hok1
    have htl : (codegen_expression r (codegen_expression l st).1).1.typeOfV
        (codegen_expression l st).2 = codegen_type tl := by
      rw [typeOfV_ext hext2 hlt1]
      exact hty1
    simp only [codegen_expression]
    exact soundOut_mono (ext_trans hext1 hext2) (codeOK_trans hcode1 hcode2)
      (codegen_binop_apply_sound k tl tr tres hsig _ _ _ hok2 htl)
  | ptrPlus l r t hl hr ihl ihr =>
    intro st hok
    obtain ⟨hok1, hext1, hcode1, hlt1, hty1⟩ := ihl st hok
    obtain ⟨hok2, hext2, hcode2, hlt2, hty2⟩ :=
      ihr (codegen_expression l st).1 hok1
    have htl : (codegen_expression r (codegen_expression l st).1).1.typeOfV
        (codegen_expression l st).2 = codegen_type (.Pointer t) := by
      rw [typeOfV_ext hext2 hlt1]
      exact hty1
    simp only [codegen_expression, codegen_binop_apply, codegen_binop_builder]
    refine soundOut_mono (ext_trans hext1 hext2) (codeOK_trans hcode1 hcode2) ?_
    refine soundOut_emitV hok2 (ext_refl _) (codeOK_refl _) ?_ ?_
    · rfl
    · rw [htl]
      rfl
  | ptrMinus l r t hl hr ihl ihr =>
    intro st hok
    obtain ⟨hok1, hext1, hcode1, hlt1, hty1⟩ := ihl st hok
    obtain ⟨hok2, hext2, hcode2, hlt2, hty2⟩ :=
      ihr (codegen_expression l st).1 hok1
    simp only [codegen_expression, codegen_binop_apply, codegen_binop_builder]
    set P := codegen_expression l st with hP
    set R := codegen_expression r P.1 with hR
    have htl : R.1.typeOfV P.2 = codegen_type (.Pointer t) := by
      rw [typeOfV_ext hext2 hlt1]
      exact hty1
    have htr : R.1.typeOfV R.2 = .int 32 := hty2
    rw [htr]
    set C := const_int R.1 (.int 32) 0 with hC
    have hc : C.1.typeOfV C.2 = .int 32 := typeOfV_emitV_self _ _ _
    rw [hc]
    set N := C.1.emitV (.arith .sub (.int 32) C.2 R.2) (.int 32) with hN
    have hpr : P.2 < R.1.tys.length := lt_of_lt_of_le hlt1 hext2.1
    have hpc : P.2 < C.1.tys.length := lt_of_lt_of_le hpr (ext_emitV _ _ _).1
    have hcn : N.1.typeOfV P.2 = C.1.typeOfV P.2 := typeOfV_ext (ext_emitV _ _ _) hpc
    have hrc : C.1.typeOfV P.2 = R.1.typeOfV P.2 := typeOfV_ext (ext_emitV _ _ _) hpr
    have hnl : N.1.typeOfV P.2 = codegen_type (.Pointer t) := by
      rw [hcn, hrc]
      exact htl
    rw [hnl]
    refine soundOut_mono (ext_trans hext1 hext2) (codeOK_trans hcode1 hcode2) ?_
    refine soundOut_emitV ?_ ?_ ?_ ?_ ?_
    · exact ok_ext hok2 (ext_trans (ext_emitV _ _ _) (ext_emitV _ _ _))
    · exact ext_trans (ext_emitV _ _ _) (ext_emitV _ _ _)
    · exact codeOK_trans (codeOK_emitV _ _ _ (by rfl)) (codeOK_emitV _ _ _ (by rfl))
    · rfl
    · rfl
  | intNeg e he ih =>
    intro st hok
    obtain ⟨hok1, hext1, hcode1, hlt1, hty1⟩ := ih st hok
    simp only [codegen_expression]
    set P := codegen_expression e st with hP
    set C := const_int P.1 (codegen_type .Int) 0 with hC
    have hc : C.1.typeOfV C.2 = .int 32 := typeOfV_emitV_self _ _ _
    rw [hc]
    refine soundOut_mono hext1 hcode1 ?_
    refine soundOut_emitV ?_ ?_ ?_ ?_ ?_
    · exact ok_ext hok1 (ext_emitV _ _ _)
    · exact ext_emitV _ _ _
    · exact codeOK_emitV _ _ _ (by rfl)
    · rfl
    · rfl
  | doubleNeg e he ih =>
    intro st hok
    obtain ⟨hok1, hext1, hcode1, hlt1, hty1⟩ := ih st hok
    simp only [codegen_expression]
    set P := codegen_expression e st with hP
    set C := P.1.emitV (.constReal (codegen_type .Double)) (codegen_type .Double)
      with hC
    have hc : C.1.typeOfV C.2 = .double := typeOfV_emitV_self _ _ _
    rw [hc]
    refine soundOut_mono hext1 hcode1 ?_
    refine soundOut_emitV ?_ ?_ ?_ ?_ ?_
    · exact ok_ext hok1 (ext_emitV _ _ _)
    · exact ext_emitV _ _ _
    · exact codeOK_emitV _ _ _ (by rfl)
    · rfl
    · rfl
  | boolNot e he ih =>
    intro st hok
    obtain ⟨hok1, hext1, hcode1, hlt1, hty1⟩ := ih st hok
    simp only [codegen_expression]
    refine soundOut_mono hext1 hcode1 ?_
    refine soundOut_emitV hok1 (ext_refl _) (codeOK_refl _) ?_ ?_
    · rfl
    · rw [hty1]
  | deref e t he ih =>
    intro st hok
    obtain ⟨hok1, hext1, hcode1, hlt1, hty1⟩ := ih st hok
    simp only [codegen_expression]
    exact ⟨hok1, hext1, hcode1, hlt1, hty1⟩
  | inc e he ih =>
    intro st hok
    obtain ⟨hok1, hext1, hcode1, hlt1, hty1⟩ := ih st hok
    simp only [codegen_expression, codegen_incdecrement, if_true]
    set P := codegen_expression e st with hP
    set C := const_int P.1 (codegen_type .Int) 1 with hC
    have hpc : P.2 < C.1.tys.length := lt_of_lt_of_le hlt1 (ext_emitV _ _ _).1
    have hcp : C.1.typeOfV P.2 = .pointer (.int 32) := by
      have h := typeOfV_ext (ext_emitV P.1 (.constInt (codegen_type .Int)
        ((1 : Int).emod (2 ^ LLVMType.width (codegen_type .Int))))
        (codegen_type .Int)) hlt1
      exact h.trans hty1
    rw [hcp]
    set L := C.1.emitV (.load P.2) (LLVMType.pointee (.pointer (.int 32))) with hL
    have hpl : P.2 < L.1.tys.length := lt_of_lt_of_le hpc (ext_emitV _ _ _).1
    have hl : L.1.typeOfV L.2 = .int 32 := typeOfV_emitV_self _ _ _
    rw [hl]
    set A := L.1.emitV (.arith .add (.int 32) L.2 C.2) (.int 32) with hA
    have hpa : P.2 < A.1.tys.length := lt_of_lt_of_le hpl (ext_emitV _ _ _).1
    have hal : A.1.typeOfV P.2 = L.1.typeOfV P.2 := typeOfV_ext (ext_emitV _ _ _) hpl
    have hlc : L.1.typeOfV P.2 = C.1.typeOfV P.2 := typeOfV_ext (ext_emitV _ _ _) hpc
    refine soundOut_mono hext1 hcode1 ⟨?_, ?_, ?_, ?_, ?_⟩
    · exact ok_ext hok1 (ext_trans (ext_emitV _ _ _) (ext_trans (ext_emitV _ _ _)
        (ext_trans (ext_emitV _ _ _) (ext_emitStore _ _ _))))
    · exact ext_trans (ext_emitV _ _ _) (ext_trans (ext_emitV _ _ _)
        (ext_trans (ext_emitV _ _ _) (ext_emitStore _ _ _)))
    · exact codeOK_trans (codeOK_emitV _ _ _ (by rfl)) (codeOK_trans (codeOK_emitV _ _ _ (by rfl))
        (codeOK_trans (codeOK_emitV _ _ _ (by rfl)) (codeOK_emitStore _ _ _)))
    · exact hpa
    · have hfp : (A.1.emitStore A.2 P.2).typeOfV P.2 = A.1.typeOfV P.2 := rfl
      rw [hfp, hal, hlc, hcp]
      rfl
  | dec e he ih =>
    intro st hok
    obtain ⟨hok1, hext1, hcode1, hlt1, hty1⟩ := ih st hok
    simp only [codegen_expression, codegen_incdecrement, Bool.false_eq_true, if_false]
    set P := codegen_expression e st with hP
    set C := const_int P.1 (codegen_type .Int) 1 with hC
    have hpc : P.2 < C.1.tys.length := lt_of_lt_of_le hlt1 (ext_emitV _ _ _).1
    have hcp : C.1.typeOfV P.2 = .pointer (.int 32) := by
      have h := typeOfV_ext (ext_emitV P.1 (.constInt (codegen_type .Int)
        ((1 : Int).emod (2 ^ LLVMType.width (codegen_type .Int))))
        (codegen_type .Int)) hlt1
      exact h.trans hty1
    rw [hcp]
    set L := C.1.emitV (.load P.2) (LLVMType.pointee (.pointer (.int 32))) with hL
    have hpl : P.2 < L.1.tys.length := lt_of_lt_of_le hpc (ext_emitV _ _ _).1
    have hl : L.1.typeOfV L.2 = .int 32 := typeOfV_emitV_self _ _ _
    rw [hl]
    set A := L.1.emitV (.arith .sub (.int 32) L.2 C.2) (.int 32) with hA
    have hpa : P.2 < A.1.tys.length := lt_of_lt_of_le hpl (ext_emitV _ _ _).1
    have hal : A.1.typeOfV P.2 = L.1.typeOfV P.2 := typeOfV_ext (ext_emitV _ _ _) hpl
    have hlc : L.1.typeOfV P.2 = C.1.typeOfV P.2 := typeOfV_ext (ext_emitV _ _ _) hpc
    refine soundOut_mono hext1 hcode1 ⟨?_, ?_, ?_, ?_, ?_⟩
    · exact ok_ext hok1 (ext_trans (ext_emitV _ _ _) (ext_trans (ext_emitV _ _ _)
        (ext_trans (ext_emitV _ _ _) (ext_emitStore _ _ _))))
    · exact ext_trans (ext_emitV _ _ _) (ext_trans (ext_emitV _ _ _)
        (ext_trans (ext_emitV _ _ _) (ext_emitStore _ _ _)))
    · exact codeOK_trans (codeOK_emitV _ _ _ (by rfl)) (codeOK_trans (codeOK_emitV _ _ _ (by rfl))
        (codeOK_trans (codeOK_emitV _ _ _ (by rfl)) (codeOK_emitStore _ _ _)))
    · exact hpa
    · have hfp : (A.1.emitStore A.2 P.2).typeOfV P.2 = A.1.typeOfV P.2 := rfl
      rw [hfp, hal, hlc, hcp]
      rfl
  | addr e t he ih =>
    intro st hok
    obtain ⟨hok1, hext1, hcode1, hlt1, hty1⟩ := ih st hok
    simp only [codegen_expression]
    exact ⟨hok1, hext1, hcode1, hlt1, hty1⟩

end backend

/-- Witness for `terminators_open_fresh_block_and_body_ends_unreachable`,
applied to a `break` statement in the function entry state. -/
theorem terminators_open_fresh_block_witness :
    backend.isTerminator backend.Stmt.Break = true ∧
    ((backend.codegen_statement .Break backend.function_entry_state).current_bb =
        backend.function_entry_state.next_bb ∧
      (backend.codegen_statement .Break backend.function_entry_state).next_bb =
        backend.function_entry_state.next_bb + 1 ∧
      ∀ p ∈ (backend.codegen_statement .Break backend.function_entry_state).code,
        p ∈ backend.function_entry_state.code ∨
          p.1 = backend.function_entry_state.current_bb) :=
  ⟨rfl, terminators_open_fresh_block_and_body_ends_unreachable.1
    .Break backend.function_entry_state rfl⟩

namespace backend

theorem emitV_snd (st : EState) (i : EInstr) (ty : LLVMType) :
    (st.emitV i ty).2 = st.tys.length := rfl

theorem emitV_tys (st : EState) (i : EInstr) (ty : LLVMType) :
    (st.emitV i ty).1.tys = st.tys ++ [ty] := rfl

theorem emitV_ecode (st : EState) (i : EInstr) (ty : LLVMType) :
    (st.emitV i ty).1.ecode = st.ecode ++ [i] := rfl

theorem emitStore_ecode (st : EState) (v p : Nat) :
    (st.emitStore v p).ecode = st.ecode ++ [.store v p] := rfl

end backend

namespace lexer

/-- No entry of the `match_literal!` chain can fire when the next character
starts an identifier: every literal's first character is punctuation. -/
theorem matchLiteralTok_none_of_identStart {c : Char}
    (hc : identStart c = true) (cs : List Char) :
    matchLiteralTok (c :: cs) = none := by
  have key : ∀ d : Char, identStart d = false → (d == c) = false := by
    intro d hd
    cases hdc : d == c with
    | false => rfl
    | true =>
        have hdceq : d = c := eq_of_beq hdc
        subst hdceq
        rw [hc] at hd
        exact Bool.noConfusion hd
  simp only [matchLiteralTok, literalTokens, List.find?, List.isPrefixOf,
    key '.' (by decide), key '(' (by decide), key ')' (by decide),
    key '\x7b' (by decide), key '\x7d' (by decide), key '[' (by decide),
    key ']' (by decide), key ';' (by decide), key ':' (by decide),
    key ',' (by decide), key '-' (by decide), key '=' (by decide),
    key '!' (by decide), key '+' (by decide), key '<' (by decide),
    key '>' (by decide), key '|' (by decide), key '&' (by decide),
    key '*' (by decide), key '/' (by decide), key '%' (by decide),
    Bool.false_and, Option.map_none']

/-- The reserved-identifier outcomes of the token matcher coincide with the
claim-side characterization, at every offset of every input. -/
theorem reservedOf_nextTokenCore (rest : List Char) (pos eof_pos : Nat) :
    reservedOf (nextTokenCore rest pos eof_pos) = reservedCore rest pos := by
  cases rest with
  | nil => rfl
  | cons c cs =>
    by_cases hs : identStart c = true
    · have hlit := matchLiteralTok_none_of_identStart hs cs
      have hid : identMatch (c :: cs) = some (c :: cs.takeWhile identCont) := by
        simp [identMatch, hs]
      simp only [nextTokenCore, reservedCore, hlit, hid]
      cases hk : keywordTok (String.mk (c :: cs.takeWhile identCont)) with
      | some tok => simp [reservedOf, hk]
      | none =>
        cases hpre : ['_', '_', '_'].isPrefixOf (c :: cs.takeWhile identCont) with
        | true => simp [reservedOf, hk, hpre]
        | false => simp [reservedOf, hk, hpre]
    · have hs' : identStart c = false := by
        cases h : identStart c
        · rfl
        · exact absurd h hs
      have hid : identMatch (c :: cs) = none := by simp [identMatch, hs']
      simp only [nextTokenCore, reservedCore, hid]
      cases hm : matchLiteralTok (c :: cs) with
      | some p =>
        obtain ⟨tok, len⟩ := p
        simp [reservedOf, hm]
      | none =>
        cases hd : matchDoubleLen (c :: cs) with
        | some len => simp [reservedOf, hm, hd]
        | none =>
          cases hi : matchIntegerLen (c :: cs) with
          | some len =>
            by_cases hn : digitsToNat ((c :: cs).take len) ≤ 9223372036854775807
            · simp [reservedOf, hm, hd, hi, hn]
            · simp [reservedOf, hm, hd, hi, hn]
          | none =>
            cases hstr : matchStringLen (c :: cs) with
            | some len => simp [reservedOf, hm, hd, hi, hstr]
            | none => simp [reservedOf, hm, hd, hi, hstr]

end lexer

/-- Claim C9: `next_token` returns `ReservedIdentifier(s)` exactly when the
next token in the input is an identifier (matching `[A-Za-z_][A-Za-z0-9_]*`
maximally and not a keyword) whose text begins with three underscores; the
error's span covers the whole matched identifier (start of the identifier,
length the identifier's length); and no other input produces this error.
Stated as: the reserved-identifier projection of the lexing result equals
the claim-side characterization `reservedAt`, both at the post-skip
position reached by `next_token` and at every position of every input. -/
theorem next_token_reserved_identifier_exactly :
    (∀ (input : List Char) (pos : Nat),
      lexer.reservedOf (lexer.nextTokenAt input pos) =
        lexer.reservedAt input pos) ∧
    (∀ input : List Char,
      lexer.reservedOf (lexer.next_token input) =
        lexer.reservedAt input (lexer.skipAllFrom input.length input)) := by
  constructor
  · intro input pos
    exact lexer.reservedOf_nextTokenCore (input.drop pos) pos input.length
  · intro input
    exact lexer.reservedOf_nextTokenCore
      (input.drop (lexer.skipAllFrom input.length input))
      (lexer.skipAllFrom input.length input) input.length

/-- Claim C8: the front-end's integer literals carry a 64-bit
two's-complement (`i64`) payload, while the backend lowering maps the `Int`
type to the 32-bit integer type `i32`; an integer literal is emitted as a
constant at that 32-bit type (the 64-bit payload is truncated modulo 2^32
by `LLVMConstInt`); and every integer arithmetic instruction the backend
emits on the modelled well-typed fragment is at the i32 type. -/
theorem int_64bit_front_end_32bit_backend :
    backend.codegen_type Ty.Int = .int 32 ∧
    (∀ x : I64, -(2 ^ 63) ≤ x.val ∧ x.val < 2 ^ 63) ∧
    (∀ (st : backend.EState) (x : I64),
      backend.codegen_literal st (.IntLiteral x) =
        st.emitV (.constInt (.int 32) (x.val.emod (2 ^ 32))) (.int 32)) ∧
    (∀ (Γ : List (Nat × Ty)) (e : backend.BExpr) (c : backend.Cat) (t : Ty),
      backend.WT Γ e c t → ∀ st : backend.EState, st.ok Γ →
        ∀ i ∈ (backend.codegen_expression e st).1.ecode,
          i ∈ st.ecode ∨ backend.intArithAt32 i = true) := by
  refine ⟨rfl, fun x => x.2, ?_, ?_⟩
  · intro st x
    simp only [backend.codegen_literal, backend.const_int, backend.codegen_type,
      backend.LLVMType.width]
  · intro Γ e c t h st hok
    exact (backend.codegen_expression_sound h st hok).2.2.1

/-- Witness for `int_64bit_front_end_32bit_backend`: its last conjunct
applied to the literal expression `5` in the empty environment and the
empty emitter state. -/
theorem int_64bit_front_end_32bit_backend_witness :
    backend.WT [] (.value (.literal (.IntLiteral ⟨5, by decide⟩)))
      .rvalue .Int ∧
    backend.EState.ok [] ⟨[], [], []⟩ ∧
    (∀ i ∈ (backend.codegen_expression
        (.value (.literal (.IntLiteral ⟨5, by decide⟩))) ⟨[], [], []⟩).1.ecode,
      i ∈ (⟨[], [], []⟩ : backend.EState).ecode ∨
        backend.intArithAt32 i = true) := by
  have hwt : backend.WT []
      (.value (.literal (.IntLiteral ⟨5, by decide⟩))) .rvalue .Int :=
    backend.WT.lit _
  have hok : backend.EState.ok [] ⟨[], [], []⟩ := by
    intro id t hid
    exact Option.noConfusion hid
  exact ⟨hwt, hok,
    int_64bit_front_end_32bit_backend.2.2.2 [] _ _ _ hwt ⟨[], [], []⟩ hok⟩

/-- Claim C10: for every well-typed place operand `sub` of type Int,
lowering the increment (resp. decrement) lvalue operator evaluates `sub`
exactly once to a pointer (of LLVM type pointer-to-i32), then emits exactly
four more instructions: the integer constant 1 at the i32 type, a load
through that pointer, an add (resp. sub) at i32 of the loaded value (SSA id
`n+1`, where `n` is the value count after evaluating `sub`) and the
constant (id `n`), and a store of the result (id `n+1+1`) back through the
same pointer; and the expression's result is that pointer itself — the
updated place (pre-increment semantics), not the loaded old value. -/
theorem incdecrement_pre_increment_semantics :
    ∀ (Γ : List (Nat × Ty)) (sub : backend.BExpr) (st : backend.EState)
      (inc : Bool), backend.WT Γ sub .place .Int → st.ok Γ →
      (backend.codegen_incdecrement inc sub st).2 =
        (backend.codegen_expression sub st).2 ∧
      (backend.codegen_expression sub st).1.typeOfV
        (backend.codegen_expression sub st).2 = .pointer (.int 32) ∧
      (backend.codegen_incdecrement inc sub st).1.ecode =
        (backend.codegen_expression sub st).1.ecode ++
          [.constInt (.int 32) 1,
           .load (backend.codegen_expression sub st).2,
           .arith (if inc then .add else .sub) (.int 32)
             ((backend.codegen_expression sub st).1.tys.length + 1)
             ((backend.codegen_expression sub st).1.tys.length),
           .store ((backend.codegen_expression sub st).1.tys.length + 2)
             (backend.codegen_expression sub st).2] := by
  intro Γ sub st inc h hok
  obtain ⟨hok1, hext1, hcode1, hlt1, hty1⟩ :=
    backend.codegen_expression_sound h st hok
  have hty : (backend.codegen_expression sub st).1.typeOfV
      (backend.codegen_expression sub st).2 = .pointer (.int 32) := hty1
  have hm1 : (1 : Int).emod (2 ^ 32) = 1 := by decide
  have e1 : backend.const_int (backend.codegen_expression sub st).1
      (backend.codegen_type .Int) 1 =
      (backend.codegen_expression sub st).1.emitV
        (.constInt (.int 32) 1) (.int 32) := by
    simp only [backend.const_int, backend.codegen_type, backend.LLVMType.width,
      hm1]
  have e2 : ((backend.codegen_expression sub st).1.emitV
      (.constInt (.int 32) 1) (.int 32)).1.typeOfV
      (backend.codegen_expression sub st).2 = .pointer (.int 32) := by
    rw [backend.typeOfV_ext (backend.ext_emitV _ _ _) hlt1]
    exact hty
  refine ⟨?_, hty, ?_⟩
  · simp only [backend.codegen_incdecrement]
  · simp only [backend.codegen_incdecrement, e1, e2,
      backend.LLVMType.pointee, backend.typeOfV_emitV_self]
    simp only [backend.emitV_snd, backend.emitV_tys, backend.emitV_ecode,
      backend.emitStore_ecode, List.length_append, List.length_singleton,
      List.length_cons, List.length_nil, List.append_assoc,
      List.singleton_append, List.cons_append, List.nil_append]

/-- Witness for `incdecrement_pre_increment_semantics`: increment of a
materialized temporary holding the integer literal 7, in the empty
environment and the empty emitter state. -/
theorem incdecrement_pre_increment_semantics_witness :
    backend.WT []
      (.rvalueToLValue (.value (.literal (.IntLiteral ⟨7, by decide⟩))))
      .place .Int ∧
    backend.EState.ok [] ⟨[], [], []⟩ ∧
    ((backend.codegen_incdecrement true
        (.rvalueToLValue (.value (.literal (.IntLiteral ⟨7, by decide⟩))))
        ⟨[], [], []⟩).2 =
      (backend.codegen_expression
        (.rvalueToLValue (.value (.literal (.IntLiteral ⟨7, by decide⟩))))
        ⟨[], [], []⟩).2 ∧
     (backend.codegen_expression
        (.rvalueToLValue (.value (.literal (.IntLiteral ⟨7, by decide⟩))))
        ⟨[], [], []⟩).1.typeOfV
       (backend.codegen_expression
        (.rvalueToLValue (.value (.literal (.IntLiteral ⟨7, by decide⟩))))
        ⟨[], [], []⟩).2 = .pointer (.int 32) ∧
     (backend.codegen_incdecrement true
        (.rvalueToLValue (.value (.literal (.IntLiteral ⟨7, by decide⟩))))
        ⟨[], [], []⟩).1.ecode =
      (backend.codegen_expression
        (.rvalueToLValue (.value (.literal (.IntLiteral ⟨7, by decide⟩))))
        ⟨[], [], []⟩).1.ecode ++
        [.constInt (.int 32) 1,
         .load (backend.codegen_expression
            (.rvalueToLValue (.value (.literal (.IntLiteral ⟨7, by decide⟩))))
            ⟨[], [], []⟩).2,
         .arith (if true then .add else .sub) (.int 32)
           ((backend.codegen_expression
              (.rvalueToLValue (.value (.literal (.IntLiteral ⟨7, by decide⟩))))
              ⟨[], [], []⟩).1.tys.length + 1)
           ((backend.codegen_expression
              (.rvalueToLValue (.value (.literal (.IntLiteral ⟨7, by decide⟩))))
              ⟨[], [], []⟩).1.tys.length),
         .store ((backend.codegen_expression
              (.rvalueToLValue (.value (.literal (.IntLiteral ⟨7, by decide⟩))))
              ⟨[], [], []⟩).1.tys.length + 2)
           (backend.codegen_expression
              (.rvalueToLValue (.value (.literal (.IntLiteral ⟨7, by decide⟩))))
              ⟨[], [], []⟩).2]) := by
  have hwt : backend.WT []
      (.rvalueToLValue (.value (.literal (.IntLiteral ⟨7, by decide⟩))))
      .place .Int :=
    backend.WT.r2l _ _ (backend.WT.lit _)
  have hok : backend.EState.ok [] ⟨[], [], []⟩ := by
    intro id t hid
    exact Option.noConfusion hid
  exact ⟨hwt, hok,
    incdecrement_pre_increment_semantics []
      (.rvalueToLValue (.value (.literal (.IntLiteral ⟨7, by decide⟩))))
      ⟨[], [], []⟩ true hwt hok⟩

end Javalette
